import Mathlib

/-!
Verification of the duplicate-file scanner (`scanner.py`) and the alternate
deduplication core (`deduper/core.py`).

The filesystem is embedded shallowly: a filesystem is an association list from
paths to entries, where an entry is either a regular file (with its byte
content and a symlink flag) or a directory (with its children and a symlink
flag).  File bytes are `Nat`s, digests are abstract functions
`List Nat → Nat`, and every operation of the source is translated to a total
executable function.  I/O failures that the source can encounter on `unlink`
are modelled by a `locked` set of paths whose deletion raises `OSError`.
-/

namespace Deduper

/-- A filesystem path: the directory part plus the final component
(`pathlib.Path.name`). -/
structure Path where
  parent : String
  name : String
deriving DecidableEq

/-- A filesystem entry: a regular file with its (resolved) byte content and a
flag recording whether the path itself is a symlink, or a directory with its
children and symlink flag. -/
inductive Entry where
  | file (content : List Nat) (symlink : Bool)
  | dir (children : List Path) (symlink : Bool)
deriving DecidableEq

/-- A filesystem: an association list from paths to entries. -/
abbrev FS := List (Path × Entry)

/-- Look a path up in the filesystem. -/
def lookupFS (fs : FS) (p : Path) : Option Entry :=
  (fs.find? (fun e => decide (e.1 = p))).map Prod.snd

/-- Model of `Path.is_file()`: the path resolves to a regular file. -/
def isFile (fs : FS) (p : Path) : Bool :=
  match lookupFS fs p with
  | some (Entry.file _ _) => true
  | _ => false

/-- Model of `Path.is_dir()`: the path resolves to a directory. -/
def isDir (fs : FS) (p : Path) : Bool :=
  match lookupFS fs p with
  | some (Entry.dir _ _) => true
  | _ => false

/-- Model of `Path.is_symlink()`: the path itself is a symbolic link. -/
def isSymlink (fs : FS) (p : Path) : Bool :=
  match lookupFS fs p with
  | some (Entry.file _ s) => s
  | some (Entry.dir _ s) => s
  | none => false

/-- Model of `path.stat().st_size` for regular files; `none` models an `OSError`. -/
def statSize (fs : FS) (p : Path) : Option Nat :=
  match lookupFS fs p with
  | some (Entry.file c _) => some c.length
  | _ => none

/-- The byte content read from a regular file (empty for non-files, which the
scanner never reads). -/
def contentOf (fs : FS) (p : Path) : List Nat :=
  match lookupFS fs p with
  | some (Entry.file c _) => c
  | _ => []

/-- Model of `Path.iterdir()`: the children of a directory. -/
def childrenOf (fs : FS) (p : Path) : List Path :=
  match lookupFS fs p with
  | some (Entry.dir cs _) => cs
  | _ => []

/-- The configuration fields assigned by `DuplicateScanner.__init__`
(`scanner.py` lines 19-49). -/
structure DuplicateScanner where
  hash_algorithm : String
  min_size : Nat
  max_size : Option Nat
  recursive : Bool
  follow_symlinks : Bool
  chunk_size : Nat
deriving DecidableEq

/-- The fixed set of hash algorithm names accepted by
`DuplicateScanner.__init__` (`scanner.py` line 48). -/
def allowedHashAlgorithms : List String := ["md5", "sha1", "sha256", "sha512"]

/-- Model of `DuplicateScanner.__init__` (`scanner.py` lines 19-49): assigns the
configuration and raises `ValueError` when the hash algorithm is not one of
the enumerated names.  The constructor performs no filesystem access, which
the embedding reflects by not taking an `FS` argument. -/
def DuplicateScanner.init (hash_algorithm : String) (min_size : Nat)
    (max_size : Option Nat) (recursive : Bool) (follow_symlinks : Bool)
    (chunk_size : Nat) : Except String DuplicateScanner :=
  if hash_algorithm ∈ allowedHashAlgorithms then
    Except.ok ⟨hash_algorithm, min_size, max_size, recursive, follow_symlinks, chunk_size⟩
  else
    Except.error ("Unsupported hash algorithm: " ++ hash_algorithm)

/-- Model of `DuplicateScanner._should_include_file` (`scanner.py` lines 130-156).
The `max_size` test mirrors the source's `if self.max_size and size >
self.max_size`, where `self.max_size` is tested for Python truthiness: both
`None` and `0` skip the upper bound. -/
def shouldIncludeFile (fs : FS) (cfg : DuplicateScanner) (p : Path) : Bool :=
  if !(isFile fs p) then false
  else if isSymlink fs p && !cfg.follow_symlinks then false
  else
    match statSize fs p with
    | none => false
    | some size =>
      if size < cfg.min_size then false
      else
        match cfg.max_size with
        | some m => if decide (m ≠ 0) && decide (m < size) then false else true
        | none => true

/-- Model of `DuplicateScanner._scan_directory_recursive` (`scanner.py` lines 111-128),
with explicit fuel bounding the recursion depth (the Python recursion is
bounded by the finite filesystem). -/
def scanDirectoryRecursive (fs : FS) (cfg : DuplicateScanner) :
    Nat → Path → List Path
  | 0, _ => []
  | fuel + 1, directory =>
    (childrenOf fs directory).foldl (fun files item =>
      if isFile fs item then
        if shouldIncludeFile fs cfg item then files ++ [item] else files
      else if isDir fs item then
        if cfg.follow_symlinks || !(isSymlink fs item) then
          files ++ scanDirectoryRecursive fs cfg fuel item
        else files
      else files) []

/-- Model of `DuplicateScanner._collect_files` (`scanner.py` lines 95-109): a path that
is neither a file nor a directory (in particular a nonexistent path)
contributes nothing. -/
def collectFiles (fs : FS) (cfg : DuplicateScanner) (paths : List Path) :
    List Path :=
  paths.foldl (fun files p =>
    if isFile fs p then
      if shouldIncludeFile fs cfg p then files ++ [p] else files
    else if isDir fs p then
      if cfg.recursive then files ++ scanDirectoryRecursive fs cfg fs.length p
      else
        files ++ (childrenOf fs p).filter
          (fun f => isFile fs f && shouldIncludeFile fs cfg f)
    else files) []

/-- One `defaultdict(list)` update: append `p` to the entry keyed `k`,
creating the entry at the end when the key is new (Python dicts preserve
insertion order). -/
def groupUpd {K : Type} [DecidableEq K] (acc : List (K × List Path)) (k : K)
    (p : Path) : List (K × List Path) :=
  match acc with
  | [] => [(k, [p])]
  | (k', l) :: t =>
    if k' = k then (k', l ++ [p]) :: t else (k', l) :: groupUpd t k p

/-- Grouping a file list by a key, as `defaultdict(list)` accumulation does in
`_group_by_size` and `_find_duplicates_hash`. -/
def groupByKey {K : Type} [DecidableEq K] (key : Path → K)
    (files : List Path) : List (K × List Path) :=
  files.foldl (fun acc f => groupUpd acc (key f) f) []

/-- Model of `DuplicateScanner._group_by_size` (`scanner.py` lines 158-170): files whose
size cannot be read are skipped. -/
def groupBySize (fs : FS) (files : List Path) : List (Nat × List Path) :=
  files.foldl (fun acc p =>
    match statSize fs p with
    | some size => groupUpd acc size p
    | none => acc) []

/-- The byte stream consumed by `_calculate_file_hash` (`scanner.py` lines
223-237): chunks of `chunk_size` bytes are folded into the digest until an
empty read; with `chunk_size = 0` the first read already returns `b""`, so
only the empty stream is digested. -/
def streamedContent (chunkSize : Nat) (content : List Nat) : List Nat :=
  if chunkSize = 0 then [] else content

/-- Model of `DuplicateScanner._calculate_file_hash` (`scanner.py` lines 223-237) with
the digest function abstracted as `hash`. -/
def calculateFileHash (cfg : DuplicateScanner) (hash : List Nat → Nat)
    (fs : FS) (p : Path) : Nat :=
  hash (streamedContent cfg.chunk_size (contentOf fs p))

/-- Model of `DuplicateScanner._files_are_identical` (`scanner.py` lines 239-253): read
both streams chunk by chunk; unequal chunks mean not identical, and an empty
first chunk means both files ended together. -/
def filesAreIdentical (chunkSize : Nat) (c1 c2 : List Nat) : Bool :=
  if h0 : chunkSize = 0 then true
  else if c1.take chunkSize ≠ c2.take chunkSize then false
  else if h2 : c1.take chunkSize = [] then true
  else filesAreIdentical chunkSize (c1.drop chunkSize) (c2.drop chunkSize)
termination_by c1.length
decreasing_by
  simp only [List.length_drop]
  refine Nat.sub_lt ?_ (Nat.pos_of_ne_zero h0)
  rcases c1 with _ | ⟨a, t⟩
  · simp at h2
  · simp

/-- The inner loop of `_find_duplicates_byte_comparison` (`scanner.py` lines
204-215): walk the files after the reference, skip processed ones, and on a
match append to the group and mark processed.  Returns the matches and the
updated processed set. -/
def byteMatchFold (ident : Path → Path → Bool) (reference : Path) :
    List Path → List Path → List Path × List Path
  | [], processed => ([], processed)
  | c :: rest, processed =>
    if c ∈ processed then byteMatchFold ident reference rest processed
    else if ident reference c then
      (c :: (byteMatchFold ident reference rest (c :: processed)).1,
        (byteMatchFold ident reference rest (c :: processed)).2)
    else byteMatchFold ident reference rest processed

/-- The outer loop of `_find_duplicates_byte_comparison` (`scanner.py` lines
196-219): each not-yet-processed file starts a group; groups with more than
one member are emitted. -/
def bcLoop (ident : Path → Path → Bool) :
    List Path → List Path → List (List Path)
  | [], _ => []
  | f :: rest, processed =>
    if f ∈ processed then bcLoop ident rest processed
    else
      if 1 < (f :: (byteMatchFold ident f rest (f :: processed)).1).length then
        (f :: (byteMatchFold ident f rest (f :: processed)).1) ::
          bcLoop ident rest (byteMatchFold ident f rest (f :: processed)).2
      else bcLoop ident rest (byteMatchFold ident f rest (f :: processed)).2

/-- Model of `DuplicateScanner._find_duplicates_hash` (`scanner.py` lines 172-185):
group by digest, keep groups with more than one member, in key insertion
order. -/
def findDuplicatesHash (cfg : DuplicateScanner) (hash : List Nat → Nat)
    (fs : FS) (files : List Path) : List (List Path) :=
  ((groupByKey (calculateFileHash cfg hash fs) files).map Prod.snd).filter
    (fun g => 1 < g.length)

/-- Model of `DuplicateScanner._find_duplicates_byte_comparison` (`scanner.py` lines
187-221). -/
def findDuplicatesByteComparison (cfg : DuplicateScanner) (fs : FS)
    (files : List Path) : List (List Path) :=
  if files.length < 2 then []
  else
    bcLoop (fun a b =>
      filesAreIdentical cfg.chunk_size (contentOf fs a) (contentOf fs b))
      files []

/-- Model of `DuplicateScanner.scan` (`scanner.py` lines 51-93): collect files, group
by size, skip singleton size groups, and concatenate the per-size duplicate
groups found by the selected strategy. -/
def DuplicateScanner.scan (cfg : DuplicateScanner) (fs : FS)
    (hash : List Nat → Nat) (paths : List Path)
    (useByteComparison : Bool) : List (List Path) :=
  if (collectFiles fs cfg paths).isEmpty then []
  else
    (groupBySize fs (collectFiles fs cfg paths)).foldl (fun duplicateGroups kv =>
      if kv.2.length < 2 then duplicateGroups
      else
        duplicateGroups ++
          (if useByteComparison then findDuplicatesByteComparison cfg fs kv.2
           else findDuplicatesHash cfg hash fs kv.2)) []

/-- One observable outcome line of a purge run: the `Would remove:`,
`Removed:` and `Error removing` messages of `purge_duplicates`. -/
inductive PurgeEvent where
  | wouldRemove (p : Path)
  | removed (p : Path)
  | failed (p : Path)
deriving DecidableEq

/-- The path an event is about. -/
def PurgeEvent.path : PurgeEvent → Path
  | PurgeEvent.wouldRemove p => p
  | PurgeEvent.removed p => p
  | PurgeEvent.failed p => p

/-- Whether the event records a successful deletion. -/
def PurgeEvent.isRemoved : PurgeEvent → Bool
  | PurgeEvent.removed _ => true
  | _ => false

/-- The state of a purge run: the filesystem, the removed counter and the
emitted outcome lines. -/
structure PurgeResult where
  fs : FS
  removedCount : Nat
  events : List PurgeEvent
deriving DecidableEq

/-- Model of `Path.unlink()`: deleting a path fails with `OSError` when the path does
not exist or is in the `locked` set (permission or I/O failure); otherwise
the entry is removed. -/
def unlink (fs : FS) (locked : List Path) (p : Path) : Option FS :=
  if (lookupFS fs p).isSome = true ∧ p ∉ locked then
    some (fs.eraseP (fun e => decide (e.1 = p)))
  else none

/-- The body of the inner loop of `purge_duplicates` (`scanner.py` lines
300-309) applied to one deletion candidate. -/
def purgeStep (locked : List Path) (dryRun : Bool) (st : PurgeResult)
    (p : Path) : PurgeResult :=
  if dryRun then { st with events := st.events ++ [PurgeEvent.wouldRemove p] }
  else
    match unlink st.fs locked p with
    | some fs' =>
      { fs := fs', removedCount := st.removedCount + 1,
        events := st.events ++ [PurgeEvent.removed p] }
    | none => { st with events := st.events ++ [PurgeEvent.failed p] }

/-- Model of `DuplicateScanner.purge_duplicates` (`scanner.py` lines 283-311): for each
group keep the first file and process the rest; returns the removed counter
(incremented only on successful deletion). -/
def purgeDuplicates (locked : List Path) (duplicateGroups : List (List Path))
    (dryRun : Bool) (fs : FS) : PurgeResult :=
  duplicateGroups.foldl
    (fun st group => (group.drop 1).foldl (purgeStep locked dryRun) st)
    ⟨fs, 0, []⟩

/-- Model of `min(group, key=lambda f: len(f.name))` in `delete_duplicates`
(`core.py` line 110): Python's `min` keeps the earliest element among ties. -/
def shortestNameFile (f : Path) (rest : List Path) : Path :=
  rest.foldl (fun best x => if x.name.length < best.name.length then x else best) f

/-- Model of `files_to_delete` in `delete_duplicates` (`core.py` line 111): every group
member that differs from the shortest-name keeper. -/
def filesToDelete (group : List Path) : List Path :=
  match group with
  | [] => []
  | f :: rest => group.filter (fun x => decide (x ≠ shortestNameFile f rest))

/-- Model of `delete_duplicates` (`core.py` lines 102-126): skip groups of at most one
member, keep the shortest-name file, and delete (or report) the rest, with
per-file `OSError`s caught. -/
def deleteDuplicates (locked : List Path) (duplicateGroups : List (List Path))
    (dryRun : Bool) (fs : FS) : FS × List PurgeEvent :=
  duplicateGroups.foldl (fun st group =>
    if group.length ≤ 1 then st
    else
      (filesToDelete group).foldl (fun st p =>
        if dryRun then (st.1, st.2 ++ [PurgeEvent.wouldRemove p])
        else
          match unlink st.1 locked p with
          | some fs' => (fs', st.2 ++ [PurgeEvent.removed p])
          | none => (st.1, st.2 ++ [PurgeEvent.failed p])) st) (fs, [])

/-- The spec's inclusion predicate, stated from the spec's words: a regular
file, not a symlink unless `follow_symlinks`, size at least `min_size`, and
size at most `max_size` whenever `max_size` is set. -/
def specIncludePred (fs : FS) (cfg : DuplicateScanner) (p : Path) : Bool :=
  isFile fs p && (!(isSymlink fs p) || cfg.follow_symlinks) &&
    (match statSize fs p with
     | some size =>
       decide (cfg.min_size ≤ size) &&
         (match cfg.max_size with
          | some m => decide (size ≤ m)
          | none => true)
     | none => false)

/-- The amended inclusion predicate: as the spec's, except that the upper
bound applies only when `max_size` is set to a nonzero value. -/
def amendedIncludePred (fs : FS) (cfg : DuplicateScanner) (p : Path) : Bool :=
  isFile fs p && (!(isSymlink fs p) || cfg.follow_symlinks) &&
    (match statSize fs p with
     | some size =>
       decide (cfg.min_size ≤ size) &&
         (match cfg.max_size with
          | some m => decide (m = 0) || decide (size ≤ m)
          | none => true)
     | none => false)

/-- The equivalence classes of a file list under a key function, in
first-occurrence order, members in input order.  This is the common
normal form both duplicate-finding strategies are proved equal to. -/
def classesOf {K : Type} [DecidableEq K] (key : Path → K) :
    List Path → List (List Path)
  | [] => []
  | f :: rest =>
    (f :: rest.filter (fun g => decide (key g = key f))) ::
      classesOf key (rest.filter (fun g => !decide (key g = key f)))
termination_by L => L.length
decreasing_by
  simp only [List.length_cons]
  exact Nat.lt_succ_of_le (List.length_filter_le _ _)


/-- Sample data: a directory with two identical files and a distinct one,
used to instantiate the theorems at concrete inputs. -/
def sampleA : Path := ⟨"/t", "a"⟩

/-- Second sample file, identical in content to `sampleA`. -/
def sampleB : Path := ⟨"/t", "bb"⟩

/-- Third sample file with distinct content. -/
def sampleC : Path := ⟨"/t", "c"⟩

/-- The sample filesystem. -/
def sampleFS : FS :=
  [(sampleA, Entry.file [1, 2] false),
   (sampleB, Entry.file [1, 2] false),
   (sampleC, Entry.file [3] false)]

/-- A scanner configuration with the source's defaults. -/
def sampleCfg : DuplicateScanner := ⟨"sha256", 0, none, true, false, 8192⟩

/-- A concrete collision-free-on-the-samples digest function. -/
def sampleHash : List Nat → Nat :=
  fun l => l.foldl (fun a b => a * 257 + b + 1) 1

/-- A path that does not exist in `sampleFS`. -/
def ghostPath : Path := ⟨"/nope", "g"⟩

/-- The file of the `max_size = 0` counterexample. -/
def cexPath : Path := ⟨"/t", "x"⟩

/-- A filesystem holding one 1-byte regular file. -/
def cexFS : FS := [(cexPath, Entry.file [7] false)]

/-- A configuration whose `max_size` is set to `0`: Python's truthiness test
in `_should_include_file` then skips the upper bound entirely. -/
def cexCfg : DuplicateScanner := ⟨"sha256", 0, some 0, true, false, 8192⟩

/-! ### Association-list grouping lemmas -/

theorem groupUpd_map_fst {K : Type} [DecidableEq K] (acc : List (K × List Path))
    (k : K) (p : Path) :
    (groupUpd acc k p).map Prod.fst =
      if k ∈ acc.map Prod.fst then acc.map Prod.fst
      else acc.map Prod.fst ++ [k] := by
  induction acc with
  | nil => simp [groupUpd]
  | cons hd t ih =>
    obtain ⟨k', l⟩ := hd
    by_cases h : k' = k
    · subst h
      simp [groupUpd]
    · have h2 : (k = k') = False := by
        simp only [eq_iff_iff, iff_false]
        exact fun hh => h hh.symm
      simp only [groupUpd, h, if_false, List.map_cons, ih, List.mem_cons, h2,
        false_or]
      by_cases hm : k ∈ t.map Prod.fst <;> simp [hm]

theorem groupUpd_fst_nodup {K : Type} [DecidableEq K]
    (acc : List (K × List Path)) (k : K) (p : Path)
    (h : (acc.map Prod.fst).Nodup) :
    ((groupUpd acc k p).map Prod.fst).Nodup := by
  rw [groupUpd_map_fst]
  by_cases hm : k ∈ acc.map Prod.fst
  · simpa [hm] using h
  · simp only [hm, if_false]
    simp [List.nodup_append, h, hm]

theorem groupUpd_of_not_mem {K : Type} [DecidableEq K]
    (acc : List (K × List Path)) (k : K) (p : Path)
    (h : k ∉ acc.map Prod.fst) :
    groupUpd acc k p = acc ++ [(k, [p])] := by
  induction acc with
  | nil => simp [groupUpd]
  | cons hd t ih =>
    obtain ⟨k', l⟩ := hd
    have hk : ¬ k' = k := by
      intro hh
      exact h (by simp [hh])
    simp only [groupUpd, hk, if_false, List.cons_append, List.cons.injEq,
      true_and]
    exact ih (fun hm => h (by simp [hm]))

theorem groupUpd_cons {K : Type} [DecidableEq K] (k' : K) (l : List Path)
    (t : List (K × List Path)) (k : K) (p : Path) :
    groupUpd ((k', l) :: t) k p =
      if k' = k then (k', l ++ [p]) :: t else (k', l) :: groupUpd t k p := rfl

theorem groupUpd_mem_snd {K : Type} [DecidableEq K]
    (acc : List (K × List Path)) (k : K) (p : Path) (kv : K × List Path)
    (hkv : kv ∈ groupUpd acc k p) :
    ∀ q ∈ kv.2, (∃ kv₀, kv₀ ∈ acc ∧ q ∈ kv₀.2) ∨ q = p := by
  induction acc generalizing kv with
  | nil =>
    intro q hq
    simp only [groupUpd, List.mem_singleton] at hkv
    subst hkv
    simp only [List.mem_singleton] at hq
    exact Or.inr hq
  | cons hd t ih =>
    obtain ⟨k', l⟩ := hd
    intro q hq
    rw [groupUpd_cons] at hkv
    by_cases h : k' = k
    · rw [if_pos h] at hkv
      rcases List.mem_cons.mp hkv with h1 | h1
      · subst h1
        rcases List.mem_append.mp hq with h2 | h2
        · exact Or.inl ⟨(k', l), by simp, h2⟩
        · exact Or.inr (List.mem_singleton.mp h2)
      · exact Or.inl ⟨kv, List.mem_cons_of_mem _ h1, hq⟩
    · rw [if_neg h] at hkv
      rcases List.mem_cons.mp hkv with h1 | h1
      · subst h1
        exact Or.inl ⟨(k', l), by simp, hq⟩
      · rcases ih kv h1 q hq with ⟨kv₀, hkv₀, hq₀⟩ | h2
        · exact Or.inl ⟨kv₀, List.mem_cons_of_mem _ hkv₀, hq₀⟩
        · exact Or.inr h2

theorem groupUpd_forall {K : Type} [DecidableEq K] (P : K → Path → Prop)
    (acc : List (K × List Path)) (k : K) (p : Path)
    (hacc : ∀ kv ∈ acc, ∀ q ∈ kv.2, P kv.1 q) (hp : P k p) :
    ∀ kv ∈ groupUpd acc k p, ∀ q ∈ kv.2, P kv.1 q := by
  induction acc with
  | nil =>
    intro kv hkv q hq
    simp only [groupUpd, List.mem_singleton] at hkv
    subst hkv
    simp only [List.mem_singleton] at hq
    subst hq
    exact hp
  | cons hd t ih =>
    obtain ⟨k', l⟩ := hd
    intro kv hkv q hq
    rw [groupUpd_cons] at hkv
    by_cases h : k' = k
    · rw [if_pos h] at hkv
      rcases List.mem_cons.mp hkv with h1 | h1
      · subst h1
        rcases List.mem_append.mp hq with h2 | h2
        · exact hacc (k', l) (by simp) q h2
        · rw [List.mem_singleton.mp h2, h]
          exact hp
      · exact hacc kv (List.mem_cons_of_mem _ h1) q hq
    · rw [if_neg h] at hkv
      rcases List.mem_cons.mp hkv with h1 | h1
      · subst h1
        exact hacc (k', l) (by simp) q hq
      · exact ih (fun kv₀ h₀ => hacc kv₀ (List.mem_cons_of_mem _ h₀)) kv h1 q hq

theorem foldl_groupUpd_forall {K : Type} [DecidableEq K] (P : K → Path → Prop)
    (keyf : Path → K) :
    ∀ (files : List Path) (acc : List (K × List Path)),
      (∀ kv ∈ acc, ∀ q ∈ kv.2, P kv.1 q) → (∀ f ∈ files, P (keyf f) f) →
      ∀ kv ∈ files.foldl (fun a f => groupUpd a (keyf f) f) acc,
        ∀ q ∈ kv.2, P kv.1 q := by
  intro files
  induction files with
  | nil =>
    intro acc hacc _ kv hkv
    exact hacc kv hkv
  | cons f rest ih =>
    intro acc hacc hf kv hkv
    exact ih (groupUpd acc (keyf f) f)
      (groupUpd_forall P acc (keyf f) f hacc (hf f (by simp)))
      (fun x hx => hf x (by simp [hx])) kv hkv

theorem foldl_groupUpd_mem {K : Type} [DecidableEq K] (keyf : Path → K) :
    ∀ (files : List Path) (acc : List (K × List Path)) (kv : K × List Path),
      kv ∈ files.foldl (fun a f => groupUpd a (keyf f) f) acc →
      ∀ q ∈ kv.2, (∃ kv₀, kv₀ ∈ acc ∧ q ∈ kv₀.2) ∨ q ∈ files := by
  intro files
  induction files with
  | nil =>
    intro acc kv hkv q hq
    exact Or.inl ⟨kv, hkv, hq⟩
  | cons f rest ih =>
    intro acc kv hkv q hq
    rcases ih (groupUpd acc (keyf f) f) kv hkv q hq with ⟨kv₀, hkv₀, hq₀⟩ | h
    · rcases groupUpd_mem_snd acc (keyf f) f kv₀ hkv₀ q hq₀ with h1 | h1
      · exact Or.inl h1
      · exact Or.inr (by simp [h1])
    · exact Or.inr (by simp [h])

theorem foldl_groupUpd_fst_nodup {K : Type} [DecidableEq K] (keyf : Path → K) :
    ∀ (files : List Path) (acc : List (K × List Path)),
      (acc.map Prod.fst).Nodup →
      ((files.foldl (fun a f => groupUpd a (keyf f) f) acc).map
        Prod.fst).Nodup := by
  intro files
  induction files with
  | nil =>
    intro acc hacc
    exact hacc
  | cons f rest ih =>
    intro acc hacc
    exact ih (groupUpd acc (keyf f) f) (groupUpd_fst_nodup acc (keyf f) f hacc)

/-! ### Equivalence classes in first-occurrence order -/

theorem classesOf_induction {K : Type} [DecidableEq K] (key : Path → K)
    (motive : List Path → Prop) (hnil : motive [])
    (hcons : ∀ f rest,
      motive (rest.filter (fun g => !decide (key g = key f))) →
      motive (f :: rest)) :
    ∀ L, motive L := by
  have main : ∀ (n : Nat) (L : List Path), L.length ≤ n → motive L := by
    intro n
    induction n with
    | zero =>
      intro L hL
      have hz : L = [] := List.eq_nil_of_length_eq_zero (Nat.le_zero.mp hL)
      rw [hz]
      exact hnil
    | succ n ih =>
      intro L hL
      cases L with
      | nil => exact hnil
      | cons f rest =>
        refine hcons f rest (ih _ ?_)
        have hf := List.length_filter_le (fun g => !decide (key g = key f)) rest
        simp only [List.length_cons] at hL
        omega
  intro L
  exact main L.length L (Nat.le_refl _)

theorem classesOf_mem_subset {K : Type} [DecidableEq K] (key : Path → K)
    (L : List Path) :
    ∀ g ∈ classesOf key L, ∀ p ∈ g, p ∈ L := by
  refine classesOf_induction key
    (fun L => ∀ g ∈ classesOf key L, ∀ p ∈ g, p ∈ L) ?_ ?_ L
  · simp [classesOf]
  · intro f rest ih g hg p hp
    rw [classesOf] at hg
    rcases List.mem_cons.mp hg with h | h
    · subst h
      rcases List.mem_cons.mp hp with h | h
      · simp [h]
      · exact List.mem_cons_of_mem _ (List.mem_of_mem_filter h)
    · exact List.mem_cons_of_mem _ (List.mem_of_mem_filter (ih g h p hp))

theorem classesOf_same_key {K : Type} [DecidableEq K] (key : Path → K)
    (L : List Path) :
    ∀ g ∈ classesOf key L, ∀ p ∈ g, ∀ q ∈ g, key p = key q := by
  refine classesOf_induction key
    (fun L => ∀ g ∈ classesOf key L, ∀ p ∈ g, ∀ q ∈ g, key p = key q) ?_ ?_ L
  · simp [classesOf]
  · intro f rest ih g hg p hp q hq
    rw [classesOf] at hg
    rcases List.mem_cons.mp hg with h | h
    · subst h
      have key_of : ∀ x ∈ f :: rest.filter (fun g => decide (key g = key f)),
          key x = key f := by
        intro x hx
        rcases List.mem_cons.mp hx with h1 | h1
        · simp [h1]
        · simpa using List.of_mem_filter h1
      rw [key_of p hp, key_of q hq]
    · exact ih g h p hp q hq

theorem classesOf_nodup {K : Type} [DecidableEq K] (key : Path → K)
    (L : List Path) (hL : L.Nodup) :
    ∀ g ∈ classesOf key L, g.Nodup := by
  refine classesOf_induction key
    (fun L => L.Nodup → ∀ g ∈ classesOf key L, g.Nodup) ?_ ?_ L hL
  · simp [classesOf]
  · intro f rest ih hnd g hg
    rw [classesOf] at hg
    have hf : f ∉ rest := (List.nodup_cons.mp hnd).1
    have hrest : rest.Nodup := (List.nodup_cons.mp hnd).2
    rcases List.mem_cons.mp hg with h | h
    · subst h
      refine List.nodup_cons.mpr ⟨?_, hrest.filter _⟩
      intro hmem
      exact hf (List.mem_of_mem_filter hmem)
    · exact ih (hrest.filter _) g h

theorem classesOf_congr {K K' : Type} [DecidableEq K] [DecidableEq K']
    (key : Path → K) (key' : Path → K') (L : List Path)
    (h : ∀ p ∈ L, ∀ q ∈ L, (key p = key q ↔ key' p = key' q)) :
    classesOf key L = classesOf key' L := by
  refine classesOf_induction key
    (fun L => (∀ p ∈ L, ∀ q ∈ L, (key p = key q ↔ key' p = key' q)) →
      classesOf key L = classesOf key' L) ?_ ?_ L h
  · simp [classesOf]
  · intro f rest ih h
    rw [classesOf, classesOf]
    have hmemf : f ∈ f :: rest := by simp
    have hdec : ∀ x ∈ rest, decide (key x = key f) = decide (key' x = key' f) := by
      intro x hx
      simp only [decide_eq_decide]
      exact h x (by simp [hx]) f hmemf
    have hfilter1 : rest.filter (fun g => decide (key g = key f)) =
        rest.filter (fun g => decide (key' g = key' f)) := by
      apply List.filter_congr
      intro x hx
      exact hdec x hx
    have hfilter2 : rest.filter (fun g => !decide (key g = key f)) =
        rest.filter (fun g => !decide (key' g = key' f)) := by
      apply List.filter_congr
      intro x hx
      rw [hdec x hx]
    have hh : ∀ p ∈ rest.filter (fun g => !decide (key g = key f)),
        ∀ q ∈ rest.filter (fun g => !decide (key g = key f)),
        (key p = key q ↔ key' p = key' q) := by
      intro p hp q hq
      exact h p (List.mem_cons_of_mem _ (List.mem_of_mem_filter hp))
        q (List.mem_cons_of_mem _ (List.mem_of_mem_filter hq))
    rw [hfilter1, ih hh, hfilter2]

theorem groupUpd_map_append {K : Type} [DecidableEq K] (key : Path → K)
    (f : Path) (rest : List Path) :
    ∀ (acc : List (K × List Path)), (acc.map Prod.fst).Nodup →
      key f ∈ acc.map Prod.fst →
      (groupUpd acc (key f) f).map
          (fun kv => kv.2 ++ rest.filter (fun g => decide (key g = kv.1)))
        = acc.map
            (fun kv => kv.2 ++ (f :: rest).filter (fun g => decide (key g = kv.1))) := by
  intro acc
  induction acc with
  | nil => simp
  | cons hd t ih =>
    obtain ⟨k', l⟩ := hd
    intro hnd hmem
    have hnd' : (t.map Prod.fst).Nodup := (List.nodup_cons.mp hnd).2
    have hk' : k' ∉ t.map Prod.fst := (List.nodup_cons.mp hnd).1
    rw [groupUpd_cons]
    by_cases h : k' = key f
    · rw [if_pos h]
      simp only [List.map_cons]
      have hhead : (l ++ [f]) ++ rest.filter (fun g => decide (key g = k'))
          = l ++ (f :: rest).filter (fun g => decide (key g = k')) := by
        rw [List.filter_cons]
        have : decide (key f = k') = true := by simp [h]
        rw [this]
        exact (List.append_cons l f _).symm
      rw [hhead]
      congr 1
      apply List.map_congr_left
      intro kv hkv
      have hne : ¬ (key f = kv.1) := by
        intro hcontra
        apply hk'
        rw [h, hcontra]
        exact List.mem_map_of_mem Prod.fst hkv
      rw [List.filter_cons]
      simp [hne]
    · rw [if_neg h]
      simp only [List.map_cons]
      have hmem' : key f ∈ t.map Prod.fst := by
        rcases List.mem_cons.mp hmem with h1 | h1
        · exact absurd h1.symm h
        · exact h1
      have hhead : l ++ rest.filter (fun g => decide (key g = k'))
          = l ++ (f :: rest).filter (fun g => decide (key g = k')) := by
        rw [List.filter_cons]
        have : ¬ (key f = k') := fun hh => h hh.symm
        simp [this]
      rw [hhead, ih hnd' hmem']

theorem foldl_groupUpd_characterization {K : Type} [DecidableEq K]
    (key : Path → K) :
    ∀ (files : List Path) (acc : List (K × List Path)),
      (acc.map Prod.fst).Nodup →
      (files.foldl (fun a f => groupUpd a (key f) f) acc).map Prod.snd
        = acc.map (fun kv => kv.2 ++ files.filter (fun f => decide (key f = kv.1)))
          ++ classesOf key
              (files.filter (fun f => !decide (key f ∈ acc.map Prod.fst))) := by
  intro files
  induction files with
  | nil =>
    intro acc hacc
    simp [classesOf]
  | cons f rest ih =>
    intro acc hacc
    rw [List.foldl_cons]
    rw [ih (groupUpd acc (key f) f) (groupUpd_fst_nodup acc (key f) f hacc)]
    by_cases h : key f ∈ acc.map Prod.fst
    · have hkeys : (groupUpd acc (key f) f).map Prod.fst = acc.map Prod.fst := by
        rw [groupUpd_map_fst, if_pos h]
      rw [hkeys]
      rw [groupUpd_map_append key f rest acc hacc h]
      have hcls : (f :: rest).filter (fun f' => !decide (key f' ∈ acc.map Prod.fst))
          = rest.filter (fun f' => !decide (key f' ∈ acc.map Prod.fst)) := by
        rw [List.filter_cons]
        simp [h]
      rw [hcls]
    · rw [groupUpd_of_not_mem acc (key f) f h]
      have hkeys : (acc ++ [(key f, [f])]).map Prod.fst
          = acc.map Prod.fst ++ [key f] := by simp
      rw [hkeys]
      rw [List.map_append]
      have haccpart : acc.map
            (fun kv => kv.2 ++ rest.filter (fun g => decide (key g = kv.1)))
          = acc.map
            (fun kv => kv.2 ++ (f :: rest).filter (fun g => decide (key g = kv.1))) := by
        apply List.map_congr_left
        intro kv hkv
        have hne : ¬ (key f = kv.1) := by
          intro hcontra
          apply h
          rw [hcontra]
          exact List.mem_map_of_mem Prod.fst hkv
        rw [List.filter_cons]
        simp [hne]
      have hcls : (f :: rest).filter (fun f' => !decide (key f' ∈ acc.map Prod.fst))
          = f :: rest.filter (fun f' => !decide (key f' ∈ acc.map Prod.fst)) := by
        rw [List.filter_cons]
        simp [h]
      rw [haccpart, hcls, classesOf]
      have hfirst : (rest.filter
            (fun f' => !decide (key f' ∈ acc.map Prod.fst))).filter
            (fun g => decide (key g = key f))
          = rest.filter (fun g => decide (key g = key f)) := by
        rw [List.filter_filter]
        apply List.filter_congr
        intro x _
        by_cases hx : key x = key f
        · simp [hx, h]
        · simp [hx]
      have hsecond : rest.filter
            (fun f' => !decide (key f' ∈ acc.map Prod.fst ++ [key f]))
          = (rest.filter
              (fun f' => !decide (key f' ∈ acc.map Prod.fst))).filter
              (fun g => !decide (key g = key f)) := by
        rw [List.filter_filter]
        apply List.filter_congr
        intro x _
        by_cases hx : key x = key f
        · simp [hx]
        · by_cases hx2 : key x ∈ acc.map Prod.fst <;> simp [hx, hx2]
      rw [hfirst, hsecond]
      simp

theorem groupByKey_snd_eq_classesOf {K : Type} [DecidableEq K]
    (key : Path → K) (files : List Path) :
    (groupByKey key files).map Prod.snd = classesOf key files := by
  have h := foldl_groupUpd_characterization key files [] (by simp)
  simpa [groupByKey] using h

theorem groupBySize_foldl_eq (fs : FS) :
    ∀ (files : List Path) (acc : List (Nat × List Path)),
      files.foldl (fun acc p =>
        match statSize fs p with
        | some size => groupUpd acc size p
        | none => acc) acc
      = (files.filter (fun p => (statSize fs p).isSome)).foldl
          (fun a f => groupUpd a ((statSize fs f).getD 0) f) acc := by
  intro files
  induction files with
  | nil => intro acc; rfl
  | cons p rest ih =>
    intro acc
    rw [List.foldl_cons, List.filter_cons]
    cases h : statSize fs p with
    | some size => simp [h, ih]
    | none => simp [h, ih]

theorem groupBySize_eq_groupByKey (fs : FS) (files : List Path) :
    groupBySize fs files
      = groupByKey (fun p => (statSize fs p).getD 0)
          (files.filter (fun p => (statSize fs p).isSome)) := by
  rw [groupBySize, groupByKey]
  exact groupBySize_foldl_eq fs files []

/-! ### Byte-by-byte comparison lemmas -/

theorem filesAreIdentical_iff (cs : Nat) (hcs : 0 < cs) :
    ∀ (c1 c2 : List Nat), (filesAreIdentical cs c1 c2 = true ↔ c1 = c2) := by
  have main : ∀ (n : Nat) (c1 c2 : List Nat), c1.length = n →
      (filesAreIdentical cs c1 c2 = true ↔ c1 = c2) := by
    intro n
    induction n using Nat.strong_induction_on with
    | _ n ih =>
      intro c1 c2 hn
      rw [filesAreIdentical]
      have hcs0 : ¬ (cs = 0) := Nat.pos_iff_ne_zero.mp hcs
      rw [dif_neg hcs0]
      by_cases heq : c1.take cs = c2.take cs
      · rw [if_neg (fun hne => hne heq)]
        by_cases hnil : c1.take cs = []
        · rw [dif_pos hnil]
          have h1 : c1 = [] := by
            rcases List.take_eq_nil_iff.mp hnil with h | h
            · exact absurd h hcs0
            · exact h
          have h2 : c2 = [] := by
            rcases List.take_eq_nil_iff.mp (heq ▸ hnil) with h | h
            · exact absurd h hcs0
            · exact h
          simp [h1, h2]
        · rw [dif_neg hnil]
          have hlen : (c1.drop cs).length < n := by
            rw [← hn, List.length_drop]
            refine Nat.sub_lt ?_ hcs
            rcases c1 with _ | ⟨a, t⟩
            · simp at hnil
            · simp
          rw [ih (c1.drop cs).length hlen (c1.drop cs) (c2.drop cs) rfl]
          constructor
          · intro hdrop
            calc c1 = c1.take cs ++ c1.drop cs := (List.take_append_drop cs c1).symm
              _ = c2.take cs ++ c2.drop cs := by rw [heq, hdrop]
              _ = c2 := List.take_append_drop cs c2
          · intro h
            rw [h]
      · rw [if_pos heq]
        constructor
        · intro h
          exact absurd h Bool.false_ne_true
        · intro h
          exact absurd (congrArg (List.take cs) h) heq
  intro c1 c2
  exact main c1.length c1 c2 rfl

theorem byteMatchFold_spec (ident : Path → Path → Bool) (reference : Path) :
    ∀ (rest processed : List Path),
      (∀ x ∈ (byteMatchFold ident reference rest processed).1,
          x ∈ rest ∧ x ∉ processed ∧ ident reference x = true) ∧
      (∀ x, x ∈ (byteMatchFold ident reference rest processed).2 ↔
          x ∈ processed ∨ x ∈ (byteMatchFold ident reference rest processed).1) := by
  intro rest
  induction rest with
  | nil =>
    intro processed
    constructor
    · intro x hx
      simp [byteMatchFold] at hx
    · intro x
      simp [byteMatchFold]
  | cons c rest' ih =>
    intro processed
    by_cases h1 : c ∈ processed
    · rw [byteMatchFold, if_pos h1]
      obtain ⟨ih1, ih2⟩ := ih processed
      refine ⟨?_, ih2⟩
      intro x hx
      obtain ⟨ha, hb, hc⟩ := ih1 x hx
      exact ⟨List.mem_cons_of_mem _ ha, hb, hc⟩
    · by_cases h2 : ident reference c = true
      · rw [byteMatchFold, if_neg h1, if_pos h2]
        obtain ⟨ih1, ih2⟩ := ih (c :: processed)
        constructor
        · intro x hx
          rcases List.mem_cons.mp hx with hx | hx
          · subst hx
            exact ⟨by simp, h1, h2⟩
          · obtain ⟨ha, hb, hc⟩ := ih1 x hx
            refine ⟨List.mem_cons_of_mem _ ha, ?_, hc⟩
            intro hx2
            exact hb (List.mem_cons_of_mem _ hx2)
        · intro x
          rw [ih2 x]
          constructor
          · rintro (hx | hx)
            · rcases List.mem_cons.mp hx with hx | hx
              · exact Or.inr (by simp [hx])
              · exact Or.inl hx
            · exact Or.inr (List.mem_cons_of_mem _ hx)
          · rintro (hx | hx)
            · exact Or.inl (List.mem_cons_of_mem _ hx)
            · rcases List.mem_cons.mp hx with hx | hx
              · exact Or.inl (by simp [hx])
              · exact Or.inr hx
      · rw [byteMatchFold, if_neg h1, if_neg h2]
        obtain ⟨ih1, ih2⟩ := ih processed
        refine ⟨?_, ih2⟩
        intro x hx
        obtain ⟨ha, hb, hc⟩ := ih1 x hx
        exact ⟨List.mem_cons_of_mem _ ha, hb, hc⟩

theorem byteMatchFold_filter (ident : Path → Path → Bool) (reference : Path) :
    ∀ (rest processed : List Path),
      (∀ c ∈ rest, ident reference c = true → c ∉ processed) → rest.Nodup →
      (byteMatchFold ident reference rest processed).1
        = rest.filter (fun c => ident reference c) := by
  intro rest
  induction rest with
  | nil =>
    intro processed _ _
    simp [byteMatchFold]
  | cons c rest' ih =>
    intro processed hyp hnd
    rw [List.filter_cons]
    by_cases h1 : c ∈ processed
    · have h2 : ¬ (ident reference c = true) := fun h => hyp c (by simp) h h1
      rw [byteMatchFold, if_pos h1]
      rw [Bool.not_eq_true] at h2
      rw [h2]
      simp only [Bool.false_eq_true, if_false]
      exact ih processed (fun d hd => hyp d (List.mem_cons_of_mem _ hd))
        (List.nodup_cons.mp hnd).2
    · by_cases h2 : ident reference c = true
      · rw [byteMatchFold, if_neg h1, if_pos h2]
        have hrec : (byteMatchFold ident reference rest' (c :: processed)).1
            = rest'.filter (fun c => ident reference c) := by
          apply ih (c :: processed)
          · intro d hd hident
            have hdc : d ≠ c := by
              intro hdc
              exact (List.nodup_cons.mp hnd).1 (hdc ▸ hd)
            intro hmem
            rcases List.mem_cons.mp hmem with h | h
            · exact hdc h
            · exact hyp d (List.mem_cons_of_mem _ hd) hident h
          · exact (List.nodup_cons.mp hnd).2
        simp [h2, hrec]
      · rw [byteMatchFold, if_neg h1, if_neg h2]
        rw [Bool.not_eq_true] at h2
        rw [h2]
        simp only [Bool.false_eq_true, if_false]
        exact ih processed (fun d hd => hyp d (List.mem_cons_of_mem _ hd))
          (List.nodup_cons.mp hnd).2

theorem bcLoop_mem (ident : Path → Path → Bool) :
    ∀ (L processed : List Path), ∀ g ∈ bcLoop ident L processed,
      1 < g.length ∧ ∀ x ∈ g, x ∈ L ∧ x ∉ processed := by
  intro L
  induction L with
  | nil =>
    intro processed g hg
    simp [bcLoop] at hg
  | cons f rest ih =>
    intro processed g hg
    by_cases h1 : f ∈ processed
    · rw [bcLoop, if_pos h1] at hg
      obtain ⟨hlen, hmem⟩ := ih processed g hg
      exact ⟨hlen, fun x hx =>
        ⟨List.mem_cons_of_mem _ (hmem x hx).1, (hmem x hx).2⟩⟩
    · rw [bcLoop, if_neg h1] at hg
      obtain ⟨spec1, spec2⟩ := byteMatchFold_spec ident f rest (f :: processed)
      have hrec : ∀ g₀ ∈ bcLoop ident rest
          (byteMatchFold ident f rest (f :: processed)).2,
          1 < g₀.length ∧ ∀ x ∈ g₀, x ∈ f :: rest ∧ x ∉ processed := by
        intro g₀ hg₀
        obtain ⟨hlen, hmem⟩ := ih _ g₀ hg₀
        refine ⟨hlen, fun x hx => ⟨List.mem_cons_of_mem _ (hmem x hx).1, ?_⟩⟩
        intro hx2
        exact (hmem x hx).2 ((spec2 x).mpr (Or.inl (List.mem_cons_of_mem _ hx2)))
      by_cases h2 : 1 < (f :: (byteMatchFold ident f rest (f :: processed)).1).length
      · rw [if_pos h2] at hg
        rcases List.mem_cons.mp hg with hg | hg
        · subst hg
          refine ⟨h2, ?_⟩
          intro x hx
          rcases List.mem_cons.mp hx with hx | hx
          · subst hx
            exact ⟨by simp, h1⟩
          · obtain ⟨ha, hb, _⟩ := spec1 x hx
            refine ⟨List.mem_cons_of_mem _ ha, fun hx2 => hb (List.mem_cons_of_mem _ hx2)⟩
        · exact hrec g hg
      · rw [if_neg h2] at hg
        exact hrec g hg

theorem bcLoop_pairwise (ident : Path → Path → Bool) :
    ∀ (L processed : List Path),
      (bcLoop ident L processed).Pairwise (fun g1 g2 => ∀ p ∈ g1, p ∉ g2) := by
  intro L
  induction L with
  | nil =>
    intro processed
    simp [bcLoop]
  | cons f rest ih =>
    intro processed
    by_cases h1 : f ∈ processed
    · rw [bcLoop, if_pos h1]
      exact ih processed
    · rw [bcLoop, if_neg h1]
      obtain ⟨spec1, spec2⟩ := byteMatchFold_spec ident f rest (f :: processed)
      by_cases h2 : 1 < (f :: (byteMatchFold ident f rest (f :: processed)).1).length
      · rw [if_pos h2]
        refine List.Pairwise.cons ?_ (ih _)
        intro g₂ hg₂ p hp hp₂
        have hpr : p ∈ (byteMatchFold ident f rest (f :: processed)).2 := by
          rcases List.mem_cons.mp hp with hp | hp
          · exact (spec2 p).mpr (Or.inl (by simp [hp]))
          · exact (spec2 p).mpr (Or.inr hp)
        exact ((bcLoop_mem ident rest _ g₂ hg₂).2 p hp₂).2 hpr
      · rw [if_neg h2]
        exact ih _

theorem bcLoop_classes {K : Type} [DecidableEq K] (key : Path → K)
    (ident : Path → Path → Bool)
    (hident : ∀ p q, ident p q = decide (key q = key p)) :
    ∀ (L processed : List Path) (ks : List K),
      L.Nodup → (∀ x ∈ L, (x ∈ processed ↔ key x ∈ ks)) →
      bcLoop ident L processed
        = (classesOf key (L.filter (fun x => !decide (key x ∈ ks)))).filter
            (fun g => 1 < g.length) := by
  intro L
  induction L with
  | nil =>
    intro processed ks _ _
    simp [bcLoop, classesOf]
  | cons f rest ih =>
    intro processed ks hnd hinv
    have hfrest : f ∉ rest := (List.nodup_cons.mp hnd).1
    have hndrest : rest.Nodup := (List.nodup_cons.mp hnd).2
    rw [List.filter_cons]
    by_cases hkf : key f ∈ ks
    · have hfp : f ∈ processed := (hinv f (by simp)).mpr hkf
      rw [bcLoop, if_pos hfp]
      have hcond : (!decide (key f ∈ ks)) = false := by simp [hkf]
      simp only [hcond, Bool.false_eq_true, if_false]
      exact ih processed ks hndrest (fun x hx => hinv x (List.mem_cons_of_mem _ hx))
    · have hfp : f ∉ processed := fun h => hkf ((hinv f (by simp)).mp h)
      rw [bcLoop, if_neg hfp]
      have hcond : (!decide (key f ∈ ks)) = true := by simp [hkf]
      simp only [hcond, if_true]
      have hms : (byteMatchFold ident f rest (f :: processed)).1
          = rest.filter (fun c => ident f c) := by
        apply byteMatchFold_filter
        · intro c hc hic
          have hkey : key c = key f := by
            have := hident f c
            rw [this] at hic
            exact of_decide_eq_true hic
          intro hmem
          rcases List.mem_cons.mp hmem with h | h
          · exact hfrest (h ▸ hc)
          · exact hkf (hkey ▸ (hinv c (List.mem_cons_of_mem _ hc)).mp h)
        · exact hndrest
      have hmsf : rest.filter (fun c => ident f c)
          = rest.filter (fun g => decide (key g = key f)) := by
        apply List.filter_congr
        intro x _
        exact hident f x
      obtain ⟨spec1, spec2⟩ := byteMatchFold_spec ident f rest (f :: processed)
      have hinv' : ∀ x ∈ rest,
          (x ∈ (byteMatchFold ident f rest (f :: processed)).2 ↔
            key x ∈ key f :: ks) := by
        intro x hx
        have hxf : x ≠ f := fun h => hfrest (h ▸ hx)
        rw [spec2 x]
        constructor
        · rintro (h | h)
          · rcases List.mem_cons.mp h with h | h
            · exact absurd h hxf
            · exact List.mem_cons_of_mem _ ((hinv x (List.mem_cons_of_mem _ hx)).mp h)
          · obtain ⟨_, _, hic⟩ := spec1 x h
            have : key x = key f := by
              rw [hident f x] at hic
              exact of_decide_eq_true hic
            simp [this]
        · intro h
          rcases List.mem_cons.mp h with h | h
          · refine Or.inr ?_
            rw [hms]
            refine List.mem_filter.mpr ⟨hx, ?_⟩
            rw [hident f x]
            exact decide_eq_true h
          · exact Or.inl (List.mem_cons_of_mem _
              ((hinv x (List.mem_cons_of_mem _ hx)).mpr h))
      have hrec := ih (byteMatchFold ident f rest (f :: processed)).2
        (key f :: ks) hndrest hinv'
      rw [classesOf]
      have hfirst : (rest.filter (fun x => !decide (key x ∈ ks))).filter
            (fun g => decide (key g = key f))
          = rest.filter (fun g => decide (key g = key f)) := by
        rw [List.filter_filter]
        apply List.filter_congr
        intro x _
        by_cases hx : key x = key f
        · simp [hx, hkf]
        · simp [hx]
      have hsecond : (rest.filter (fun x => !decide (key x ∈ ks))).filter
            (fun g => !decide (key g = key f))
          = rest.filter (fun x => !decide (key x ∈ key f :: ks)) := by
        rw [List.filter_filter]
        apply List.filter_congr
        intro x _
        by_cases hx : key x = key f
        · simp [hx]
        · by_cases hx2 : key x ∈ ks <;> simp [hx, hx2]
      rw [hfirst, hsecond]
      rw [List.filter_cons]
      rw [hms, hmsf, hrec]
      by_cases h2 : 1 < (f :: rest.filter (fun g => decide (key g = key f))).length
      · simp [h2]
      · simp [h2]

theorem findDuplicatesByteComparison_eq_classes (cfg : DuplicateScanner)
    (fs : FS) (files : List Path) (hcs : 0 < cfg.chunk_size)
    (hnd : files.Nodup) :
    findDuplicatesByteComparison cfg fs files
      = (classesOf (fun p => contentOf fs p) files).filter
          (fun g => 1 < g.length) := by
  have hident : ∀ p q,
      filesAreIdentical cfg.chunk_size (contentOf fs p) (contentOf fs q)
        = decide (contentOf fs q = contentOf fs p) := by
    intro p q
    have hiff := filesAreIdentical_iff cfg.chunk_size hcs
      (contentOf fs p) (contentOf fs q)
    by_cases h : contentOf fs p = contentOf fs q
    · rw [hiff.mpr h]
      exact (decide_eq_true h.symm).symm
    · have h1 : filesAreIdentical cfg.chunk_size (contentOf fs p)
          (contentOf fs q) = false := by
        rw [← Bool.not_eq_true]
        intro hcontra
        exact h (hiff.mp hcontra)
      rw [h1]
      have h2 : ¬ (contentOf fs q = contentOf fs p) := fun hh => h hh.symm
      exact (decide_eq_false h2).symm
  rw [findDuplicatesByteComparison]
  by_cases hlen : files.length < 2
  · rw [if_pos hlen]
    rcases files with _ | ⟨a, _ | ⟨b, t⟩⟩
    · simp [classesOf]
    · simp [classesOf]
    · exact absurd hlen (by simp)
  · rw [if_neg hlen]
    have h := bcLoop_classes (fun p => contentOf fs p)
      (fun a b => filesAreIdentical cfg.chunk_size (contentOf fs a) (contentOf fs b))
      hident files [] [] hnd (by simp)
    rw [h]
    simp

theorem findDuplicatesHash_eq_classes (cfg : DuplicateScanner)
    (hash : List Nat → Nat) (fs : FS) (files : List Path) :
    findDuplicatesHash cfg hash fs files
      = (classesOf (calculateFileHash cfg hash fs) files).filter
          (fun g => 1 < g.length) := by
  rw [findDuplicatesHash, groupByKey_snd_eq_classesOf]

/-! ### Scan-level lemmas -/

theorem foldl_skip_append (strat : List Path → List (List Path)) :
    ∀ (L : List (Nat × List Path)) (acc : List (List Path)),
      L.foldl (fun dups kv =>
        if kv.2.length < 2 then dups else dups ++ strat kv.2) acc
      = acc ++ ((L.filter (fun kv => !decide (kv.2.length < 2))).map
          (fun kv => strat kv.2)).flatten := by
  intro L
  induction L with
  | nil =>
    intro acc
    simp
  | cons kv t ih =>
    intro acc
    rw [List.foldl_cons, List.filter_cons]
    by_cases h : kv.2.length < 2
    · rw [if_pos h, ih]
      simp [h]
    · rw [if_neg h, ih]
      simp [h]

theorem scan_eq_flatten (cfg : DuplicateScanner) (fs : FS)
    (hash : List Nat → Nat) (paths : List Path) (ub : Bool) :
    DuplicateScanner.scan cfg fs hash paths ub
      = (((groupBySize fs (collectFiles fs cfg paths)).filter
            (fun kv => !decide (kv.2.length < 2))).map
          (fun kv =>
            if ub then findDuplicatesByteComparison cfg fs kv.2
            else findDuplicatesHash cfg hash fs kv.2)).flatten := by
  rw [DuplicateScanner.scan]
  by_cases hemp : (collectFiles fs cfg paths).isEmpty
  · have hfiles : collectFiles fs cfg paths = [] := List.isEmpty_iff.mp hemp
    rw [if_pos hemp, hfiles]
    simp [groupBySize]
  · rw [if_neg hemp]
    have h := foldl_skip_append
      (fun l =>
        if ub then findDuplicatesByteComparison cfg fs l
        else findDuplicatesHash cfg hash fs l)
      (groupBySize fs (collectFiles fs cfg paths)) []
    simpa using h

theorem groupBySize_sizes (fs : FS) (files : List Path) :
    ∀ kv ∈ groupBySize fs files, ∀ p ∈ kv.2, statSize fs p = some kv.1 := by
  intro kv hkv p hp
  rw [groupBySize_eq_groupByKey] at hkv
  unfold groupByKey at hkv
  refine foldl_groupUpd_forall (fun k q => statSize fs q = some k)
    (fun p => (statSize fs p).getD 0) _ [] (by simp) ?_ kv hkv p hp
  intro f hf
  have hsome : (statSize fs f).isSome = true := by
    have := List.of_mem_filter hf
    simpa using this
  show statSize fs f = some ((statSize fs f).getD 0)
  cases h : statSize fs f with
  | none => rw [h] at hsome; simp at hsome
  | some v => rfl

theorem groupBySize_mem_files (fs : FS) (files : List Path) :
    ∀ kv ∈ groupBySize fs files, ∀ p ∈ kv.2, p ∈ files := by
  intro kv hkv p hp
  rw [groupBySize_eq_groupByKey] at hkv
  unfold groupByKey at hkv
  rcases foldl_groupUpd_mem (fun p => (statSize fs p).getD 0) _ [] kv hkv p hp
    with ⟨kv₀, hkv₀, _⟩ | h
  · simp at hkv₀
  · exact List.mem_of_mem_filter h

theorem groupBySize_fst_nodup (fs : FS) (files : List Path) :
    ((groupBySize fs files).map Prod.fst).Nodup := by
  rw [groupBySize_eq_groupByKey]
  unfold groupByKey
  exact foldl_groupUpd_fst_nodup _ _ [] (by simp)

theorem groupBySize_snd_nodup (fs : FS) (files : List Path)
    (hnd : files.Nodup) : ∀ kv ∈ groupBySize fs files, kv.2.Nodup := by
  intro kv hkv
  rw [groupBySize_eq_groupByKey] at hkv
  have hmem : kv.2 ∈ (groupByKey (fun p => (statSize fs p).getD 0)
      (files.filter (fun p => (statSize fs p).isSome))).map Prod.snd :=
    List.mem_map_of_mem Prod.snd hkv
  rw [groupByKey_snd_eq_classesOf] at hmem
  exact classesOf_nodup _ _ (hnd.filter _) kv.2 hmem

theorem findDuplicatesHash_mem (cfg : DuplicateScanner)
    (hash : List Nat → Nat) (fs : FS) (files : List Path) :
    ∀ g ∈ findDuplicatesHash cfg hash fs files,
      1 < g.length ∧ ∀ p ∈ g, p ∈ files := by
  intro g hg
  rw [findDuplicatesHash_eq_classes] at hg
  obtain ⟨hmem, hcond⟩ := List.mem_filter.mp hg
  refine ⟨of_decide_eq_true hcond, ?_⟩
  exact fun p hp => classesOf_mem_subset _ files g hmem p hp

theorem findDuplicatesByteComparison_mem (cfg : DuplicateScanner) (fs : FS)
    (files : List Path) :
    ∀ g ∈ findDuplicatesByteComparison cfg fs files,
      1 < g.length ∧ ∀ p ∈ g, p ∈ files := by
  intro g hg
  rw [findDuplicatesByteComparison] at hg
  by_cases h : files.length < 2
  · rw [if_pos h] at hg
    simp at hg
  · rw [if_neg h] at hg
    obtain ⟨hlen, hmem⟩ := bcLoop_mem _ files [] g hg
    exact ⟨hlen, fun p hp => (hmem p hp).1⟩

theorem classesOf_pairwise {K : Type} [DecidableEq K] (key : Path → K)
    (L : List Path) :
    (classesOf key L).Pairwise (fun g1 g2 => ∀ p ∈ g1, p ∉ g2) := by
  refine classesOf_induction key
    (fun L => (classesOf key L).Pairwise (fun g1 g2 => ∀ p ∈ g1, p ∉ g2)) ?_ ?_ L
  · simp [classesOf]
  · intro f rest ih
    rw [classesOf]
    refine List.Pairwise.cons ?_ ih
    intro g₂ hg₂ p hp hp₂
    have hkeyp : key p = key f := by
      rcases List.mem_cons.mp hp with h | h
      · simp [h]
      · simpa using List.of_mem_filter h
    have hmem₂ : p ∈ rest.filter (fun g => !decide (key g = key f)) :=
      classesOf_mem_subset _ _ g₂ hg₂ p hp₂
    have := List.of_mem_filter hmem₂
    simp [hkeyp] at this

theorem findDuplicatesHash_pairwise (cfg : DuplicateScanner)
    (hash : List Nat → Nat) (fs : FS) (files : List Path) :
    (findDuplicatesHash cfg hash fs files).Pairwise
      (fun g1 g2 => ∀ p ∈ g1, p ∉ g2) := by
  rw [findDuplicatesHash_eq_classes]
  exact (classesOf_pairwise _ files).sublist (List.filter_sublist _)

theorem findDuplicatesByteComparison_pairwise (cfg : DuplicateScanner)
    (fs : FS) (files : List Path) :
    (findDuplicatesByteComparison cfg fs files).Pairwise
      (fun g1 g2 => ∀ p ∈ g1, p ∉ g2) := by
  rw [findDuplicatesByteComparison]
  by_cases h : files.length < 2
  · simp [h]
  · rw [if_neg h]
    exact bcLoop_pairwise _ files []

/-! ### Collector lemmas -/

theorem foldl_mem_invariant {β : Type} (P : Path → Prop)
    (body : List Path → β → List Path)
    (hbody : ∀ acc x, ∀ p ∈ body acc x, p ∈ acc ∨ P p) :
    ∀ (L : List β) (acc : List Path), ∀ p ∈ L.foldl body acc, p ∈ acc ∨ P p := by
  intro L
  induction L with
  | nil =>
    intro acc p hp
    exact Or.inl hp
  | cons x xs ih =>
    intro acc p hp
    rcases ih (body acc x) p hp with h | h
    · exact hbody acc x p h
    · exact Or.inr h

theorem scanDirectoryRecursive_included (fs : FS) (cfg : DuplicateScanner) :
    ∀ (fuel : Nat) (d : Path), ∀ p ∈ scanDirectoryRecursive fs cfg fuel d,
      shouldIncludeFile fs cfg p = true := by
  intro fuel
  induction fuel with
  | zero =>
    intro d p hp
    simp [scanDirectoryRecursive] at hp
  | succ n ih =>
    intro d p hp
    rw [scanDirectoryRecursive] at hp
    have hbody : ∀ (acc : List Path) (item : Path),
        ∀ q ∈ (if isFile fs item then
            if shouldIncludeFile fs cfg item then acc ++ [item] else acc
          else if isDir fs item then
            if cfg.follow_symlinks || !(isSymlink fs item) then
              acc ++ scanDirectoryRecursive fs cfg n item
            else acc
          else acc),
          q ∈ acc ∨ shouldIncludeFile fs cfg q = true := by
      intro acc item q hq
      by_cases h1 : isFile fs item = true
      · rw [if_pos h1] at hq
        by_cases h2 : shouldIncludeFile fs cfg item = true
        · rw [if_pos h2] at hq
          rcases List.mem_append.mp hq with h | h
          · exact Or.inl h
          · exact Or.inr (List.mem_singleton.mp h ▸ h2)
        · rw [if_neg h2] at hq
          exact Or.inl hq
      · rw [if_neg h1] at hq
        by_cases h3 : isDir fs item = true
        · rw [if_pos h3] at hq
          by_cases h4 : (cfg.follow_symlinks || !(isSymlink fs item)) = true
          · rw [if_pos h4] at hq
            rcases List.mem_append.mp hq with h | h
            · exact Or.inl h
            · exact Or.inr (ih item q h)
          · rw [if_neg h4] at hq
            exact Or.inl hq
        · rw [if_neg h3] at hq
          exact Or.inl hq
    rcases foldl_mem_invariant (fun q => shouldIncludeFile fs cfg q = true)
      _ hbody (childrenOf fs d) [] p hp with h | h
    · simp at h
    · exact h

theorem collectFiles_included (fs : FS) (cfg : DuplicateScanner)
    (paths : List Path) :
    ∀ p ∈ collectFiles fs cfg paths, shouldIncludeFile fs cfg p = true := by
  intro p hp
  rw [collectFiles] at hp
  have hbody : ∀ (acc : List Path) (x : Path),
      ∀ q ∈ (if isFile fs x then
          if shouldIncludeFile fs cfg x then acc ++ [x] else acc
        else if isDir fs x then
          if cfg.recursive then acc ++ scanDirectoryRecursive fs cfg fs.length x
          else
            acc ++ (childrenOf fs x).filter
              (fun f => isFile fs f && shouldIncludeFile fs cfg f)
        else acc),
        q ∈ acc ∨ shouldIncludeFile fs cfg q = true := by
    intro acc x q hq
    by_cases h1 : isFile fs x = true
    · rw [if_pos h1] at hq
      by_cases h2 : shouldIncludeFile fs cfg x = true
      · rw [if_pos h2] at hq
        rcases List.mem_append.mp hq with h | h
        · exact Or.inl h
        · exact Or.inr (List.mem_singleton.mp h ▸ h2)
      · rw [if_neg h2] at hq
        exact Or.inl hq
    · rw [if_neg h1] at hq
      by_cases h3 : isDir fs x = true
      · rw [if_pos h3] at hq
        by_cases h4 : cfg.recursive = true
        · rw [if_pos h4] at hq
          rcases List.mem_append.mp hq with h | h
          · exact Or.inl h
          · exact Or.inr (scanDirectoryRecursive_included fs cfg fs.length x q h)
        · rw [if_neg h4] at hq
          rcases List.mem_append.mp hq with h | h
          · exact Or.inl h
          · refine Or.inr ?_
            have := List.of_mem_filter h
            exact (Bool.and_eq_true_iff.mp this).2
      · rw [if_neg h3] at hq
        exact Or.inl hq
  rcases foldl_mem_invariant (fun q => shouldIncludeFile fs cfg q = true)
    _ hbody paths [] p hp with h | h
  · simp at h
  · exact h

theorem collectFiles_nonexistent (fs : FS) (cfg : DuplicateScanner) :
    ∀ (paths : List Path), (∀ p ∈ paths, lookupFS fs p = none) →
      collectFiles fs cfg paths = [] := by
  have aux : ∀ (paths : List Path) (acc : List Path),
      (∀ p ∈ paths, lookupFS fs p = none) →
      paths.foldl (fun files p =>
        if isFile fs p then
          if shouldIncludeFile fs cfg p then files ++ [p] else files
        else if isDir fs p then
          if cfg.recursive then files ++ scanDirectoryRecursive fs cfg fs.length p
          else
            files ++ (childrenOf fs p).filter
              (fun f => isFile fs f && shouldIncludeFile fs cfg f)
        else files) acc = acc := by
    intro paths
    induction paths with
    | nil =>
      intro acc _
      rfl
    | cons p rest ih =>
      intro acc hnone
      have hp : lookupFS fs p = none := hnone p (by simp)
      have hfile : ¬ (isFile fs p = true) := by simp [isFile, hp]
      have hdir : ¬ (isDir fs p = true) := by simp [isDir, hp]
      rw [List.foldl_cons, if_neg hfile, if_neg hdir]
      exact ih acc (fun q hq => hnone q (List.mem_cons_of_mem _ hq))
  intro paths hnone
  exact aux paths [] hnone

/-! ### Unlink and purge lemmas -/

theorem unlink_some {fs : FS} {locked : List Path} {p : Path} {fs' : FS}
    (h : unlink fs locked p = some fs') :
    (lookupFS fs p).isSome = true ∧ p ∉ locked ∧
      fs' = fs.eraseP (fun e => decide (e.1 = p)) := by
  rw [unlink] at h
  by_cases hc : (lookupFS fs p).isSome = true ∧ p ∉ locked
  · rw [if_pos hc] at h
    exact ⟨hc.1, hc.2, (Option.some.injEq _ _ ▸ h).symm⟩
  · rw [if_neg hc] at h
    exact absurd h (by simp)

theorem eraseP_length_of_mem {fs : FS} {p : Path}
    (h : (lookupFS fs p).isSome = true) :
    (fs.eraseP (fun e => decide (e.1 = p))).length + 1 = fs.length := by
  induction fs with
  | nil => simp [lookupFS] at h
  | cons e t ih =>
    by_cases he : e.1 = p
    · rw [List.eraseP_cons_of_pos (by simp [he])]
      simp
    · rw [List.eraseP_cons_of_neg (by simp [he])]
      have ht : (lookupFS t p).isSome = true := by
        rw [lookupFS, List.find?_cons_of_neg _ (by simp [he])] at h
        exact h
      simp only [List.length_cons]
      rw [← ih ht]

theorem unlink_fs_length {fs : FS} {locked : List Path} {p : Path} {fs' : FS}
    (h : unlink fs locked p = some fs') : fs'.length + 1 = fs.length := by
  obtain ⟨hsome, _, heq⟩ := unlink_some h
  rw [heq]
  exact eraseP_length_of_mem hsome

theorem unlink_nodup {fs : FS} {locked : List Path} {p : Path} {fs' : FS}
    (h : unlink fs locked p = some fs') (hnd : (fs.map Prod.fst).Nodup) :
    (fs'.map Prod.fst).Nodup := by
  obtain ⟨_, _, heq⟩ := unlink_some h
  rw [heq]
  exact hnd.sublist ((List.eraseP_sublist _).map Prod.fst)

theorem lookupFS_cons_of_ne (e : Path × Entry) (t : FS) (q : Path)
    (h : ¬ e.1 = q) : lookupFS (e :: t) q = lookupFS t q := by
  rw [lookupFS, List.find?_cons_of_neg _ (by simp [h])]
  rfl

theorem lookupFS_cons_of_eq (e : Path × Entry) (t : FS) (q : Path)
    (h : e.1 = q) : lookupFS (e :: t) q = some e.2 := by
  rw [lookupFS, List.find?_cons_of_pos _ (by simp [h])]
  rfl

theorem eraseP_lookup_other (fs : FS) (p q : Path) (hne : q ≠ p) :
    lookupFS (fs.eraseP (fun e => decide (e.1 = p))) q = lookupFS fs q := by
  induction fs with
  | nil => rfl
  | cons e t ih =>
    by_cases he : e.1 = p
    · rw [List.eraseP_cons_of_pos (by simp [he])]
      have hq : ¬ (e.1 = q) := fun hh => hne (hh ▸ he)
      rw [lookupFS_cons_of_ne e t q hq]
    · rw [List.eraseP_cons_of_neg (by simp [he])]
      by_cases heq : e.1 = q
      · rw [lookupFS_cons_of_eq _ _ q heq, lookupFS_cons_of_eq e t q heq]
      · rw [lookupFS_cons_of_ne _ _ q heq, lookupFS_cons_of_ne e t q heq]
        exact ih

theorem unlink_lookup_other {fs : FS} {locked : List Path} {p : Path}
    {fs' : FS} (h : unlink fs locked p = some fs') (q : Path) (hne : q ≠ p) :
    lookupFS fs' q = lookupFS fs q := by
  obtain ⟨_, _, heq⟩ := unlink_some h
  rw [heq]
  exact eraseP_lookup_other fs p q hne

theorem purgeDuplicates_eq_foldl_flatten (locked : List Path)
    (duplicateGroups : List (List Path)) (dryRun : Bool) (fs : FS) :
    purgeDuplicates locked duplicateGroups dryRun fs
      = ((duplicateGroups.map (fun g => g.drop 1)).flatten).foldl
          (purgeStep locked dryRun) ⟨fs, 0, []⟩ := by
  rw [purgeDuplicates]
  have aux : ∀ (gs : List (List Path)) (st : PurgeResult),
      gs.foldl (fun st group => (group.drop 1).foldl (purgeStep locked dryRun) st) st
        = ((gs.map (fun g => g.drop 1)).flatten).foldl (purgeStep locked dryRun) st := by
    intro gs
    induction gs with
    | nil =>
      intro st
      rfl
    | cons g t ih =>
      intro st
      rw [List.foldl_cons, ih, List.map_cons, List.flatten_cons,
        List.foldl_append]
  exact aux duplicateGroups _

theorem purge_foldl_dry (locked : List Path) :
    ∀ (ps : List Path) (st : PurgeResult),
      ps.foldl (purgeStep locked true) st
        = ⟨st.fs, st.removedCount,
            st.events ++ ps.map PurgeEvent.wouldRemove⟩ := by
  intro ps
  induction ps with
  | nil =>
    intro st
    simp
  | cons p t ih =>
    intro st
    rw [List.foldl_cons]
    have hstep : purgeStep locked true st p
        = { st with events := st.events ++ [PurgeEvent.wouldRemove p] } := rfl
    rw [hstep, ih]
    simp

theorem purge_foldl_live_paths (locked : List Path) :
    ∀ (ps : List Path) (st : PurgeResult),
      (ps.foldl (purgeStep locked false) st).events.map PurgeEvent.path
        = st.events.map PurgeEvent.path ++ ps := by
  intro ps
  induction ps with
  | nil =>
    intro st
    simp
  | cons p t ih =>
    intro st
    rw [List.foldl_cons, ih]
    have hstep : (purgeStep locked false st p).events.map PurgeEvent.path
        = st.events.map PurgeEvent.path ++ [p] := by
      rw [purgeStep]
      simp only [Bool.false_eq_true, if_false]
      cases hu : unlink st.fs locked p <;> simp [PurgeEvent.path]
    rw [hstep]
    simp

theorem purge_foldl_live_count (locked : List Path) :
    ∀ (ps : List Path) (st : PurgeResult),
      st.removedCount = st.events.countP PurgeEvent.isRemoved →
      (ps.foldl (purgeStep locked false) st).removedCount
        = (ps.foldl (purgeStep locked false) st).events.countP
            PurgeEvent.isRemoved := by
  intro ps
  induction ps with
  | nil =>
    intro st hst
    exact hst
  | cons p t ih =>
    intro st hst
    rw [List.foldl_cons]
    apply ih
    rw [purgeStep]
    simp only [Bool.false_eq_true, if_false]
    cases hu : unlink st.fs locked p with
    | some fs' => simp [List.countP_append, hst, PurgeEvent.isRemoved]
    | none => simp [List.countP_append, hst, PurgeEvent.isRemoved]

theorem purge_foldl_live_fs (locked : List Path) :
    ∀ (ps : List Path) (st : PurgeResult),
      (st.fs.map Prod.fst).Nodup →
      ((ps.foldl (purgeStep locked false) st).fs.map Prod.fst).Nodup ∧
      (ps.foldl (purgeStep locked false) st).fs.length
          + (ps.foldl (purgeStep locked false) st).removedCount
        = st.fs.length + st.removedCount := by
  intro ps
  induction ps with
  | nil =>
    intro st hst
    exact ⟨hst, rfl⟩
  | cons p t ih =>
    intro st hst
    rw [List.foldl_cons]
    have hstep : ((purgeStep locked false st p).fs.map Prod.fst).Nodup ∧
        (purgeStep locked false st p).fs.length
            + (purgeStep locked false st p).removedCount
          = st.fs.length + st.removedCount := by
      rw [purgeStep]
      simp only [Bool.false_eq_true, if_false]
      cases hu : unlink st.fs locked p with
      | some fs' =>
        refine ⟨unlink_nodup hu hst, ?_⟩
        have := unlink_fs_length hu
        simp only []
        omega
      | none => exact ⟨hst, rfl⟩
    obtain ⟨hnd', hlen'⟩ := ih (purgeStep locked false st p) hstep.1
    exact ⟨hnd', by omega⟩

theorem purge_foldl_live_frame (locked : List Path) :
    ∀ (ps : List Path) (st : PurgeResult) (q : Path), q ∉ ps →
      lookupFS (ps.foldl (purgeStep locked false) st).fs q
        = lookupFS st.fs q := by
  intro ps
  induction ps with
  | nil =>
    intro st q _
    rfl
  | cons p t ih =>
    intro st q hq
    rw [List.foldl_cons]
    have hqp : q ≠ p := fun h => hq (by simp [h])
    have hqt : q ∉ t := fun h => hq (List.mem_cons_of_mem _ h)
    rw [ih (purgeStep locked false st p) q hqt]
    rw [purgeStep]
    simp only [Bool.false_eq_true, if_false]
    cases hu : unlink st.fs locked p with
    | some fs' =>
      simp only []
      exact unlink_lookup_other hu q hqp
    | none => rfl

/-! ### Shortest-name keeper lemmas -/

theorem shortestNameFile_spec :
    ∀ (rest : List Path) (f : Path),
      (∃ pre post, f :: rest = pre ++ shortestNameFile f rest :: post ∧
          ∀ x ∈ pre, (shortestNameFile f rest).name.length < x.name.length) ∧
      (∀ x ∈ f :: rest,
          (shortestNameFile f rest).name.length ≤ x.name.length) := by
  intro rest
  induction rest with
  | nil =>
    intro f
    refine ⟨⟨[], [], by simp [shortestNameFile], by simp⟩, ?_⟩
    intro x hx
    rw [List.mem_singleton.mp hx]
    exact Nat.le_refl _
  | cons y rest' ih =>
    intro f
    have hunfold : shortestNameFile f (y :: rest')
        = shortestNameFile (if y.name.length < f.name.length then y else f) rest' := rfl
    by_cases hy : y.name.length < f.name.length
    · rw [hunfold, if_pos hy]
      obtain ⟨⟨pre', post', hdecomp, hpre'⟩, hle'⟩ := ih y
      have hmy : (shortestNameFile y rest').name.length ≤ y.name.length :=
        hle' y (by simp)
      constructor
      · refine ⟨f :: pre', post', ?_, ?_⟩
        · rw [List.cons_append, ← hdecomp]
        · intro x hx
          rcases List.mem_cons.mp hx with hx | hx
          · rw [hx]
            exact Nat.lt_of_le_of_lt hmy hy
          · exact hpre' x hx
      · intro x hx
        rcases List.mem_cons.mp hx with hx | hx
        · rw [hx]
          exact Nat.le_of_lt (Nat.lt_of_le_of_lt hmy hy)
        · exact hle' x hx
    · rw [hunfold, if_neg hy]
      have hfy : f.name.length ≤ y.name.length := Nat.le_of_not_lt hy
      obtain ⟨⟨pre', post', hdecomp, hpre'⟩, hle'⟩ := ih f
      have hmf : (shortestNameFile f rest').name.length ≤ f.name.length :=
        hle' f (by simp)
      constructor
      · rcases pre' with _ | ⟨a, pre''⟩
        · simp only [List.nil_append] at hdecomp
          have hm : shortestNameFile f rest' = f := (List.cons.injEq _ _ _ _ ▸ hdecomp).1.symm
          refine ⟨[], y :: rest', ?_, by simp⟩
          rw [hm]
          simp
        · rw [List.cons_append] at hdecomp
          have ha : a = f := ((List.cons.injEq _ _ _ _).mp hdecomp).1.symm
          have hrest : rest' = pre'' ++ shortestNameFile f rest' :: post' :=
            ((List.cons.injEq _ _ _ _).mp hdecomp).2
          have hmlt : (shortestNameFile f rest').name.length < f.name.length := by
            have := hpre' a (by simp)
            rw [ha] at this
            exact this
          refine ⟨f :: y :: pre'', post', ?_, ?_⟩
          · simp only [List.cons_append]
            rw [← hrest]
          · intro x hx
            rcases List.mem_cons.mp hx with hx | hx
            · rw [hx]
              exact hmlt
            · rcases List.mem_cons.mp hx with hx2 | hx2
              · rw [hx2]
                exact Nat.lt_of_lt_of_le hmlt hfy
              · exact hpre' x (by simp [ha, hx2])
      · intro x hx
        rcases List.mem_cons.mp hx with hx | hx
        · rw [hx]
          exact hle' f (by simp)
        · rcases List.mem_cons.mp hx with hx2 | hx2
          · rw [hx2]
            exact Nat.le_trans hmf hfy
          · exact hle' x (List.mem_cons_of_mem _ hx2)

theorem filesToDelete_mem (f : Path) (rest : List Path) (x : Path) :
    x ∈ filesToDelete (f :: rest) ↔
      (x ∈ f :: rest ∧ x ≠ shortestNameFile f rest) := by
  rw [filesToDelete]
  rw [List.mem_filter]
  simp

theorem scan_mem_partition (cfg : DuplicateScanner) (fs : FS)
    (hash : List Nat → Nat) (paths : List Path) (ub : Bool) :
    ∀ g ∈ DuplicateScanner.scan cfg fs hash paths ub,
      1 < g.length ∧ ∃ kv, kv ∈ groupBySize fs (collectFiles fs cfg paths) ∧
        ∀ p ∈ g, p ∈ kv.2 := by
  intro g hg
  rw [scan_eq_flatten] at hg
  rcases List.mem_flatten.mp hg with ⟨l, hl, hgl⟩
  rcases List.mem_map.mp hl with ⟨kv, hkv, rfl⟩
  have hkv' := List.mem_of_mem_filter hkv
  cases ub with
  | true =>
    simp only [if_true] at hgl
    obtain ⟨hlen, hmem⟩ := findDuplicatesByteComparison_mem cfg fs kv.2 g hgl
    exact ⟨hlen, kv, hkv', hmem⟩
  | false =>
    simp only [Bool.false_eq_true, if_false] at hgl
    obtain ⟨hlen, hmem⟩ := findDuplicatesHash_mem cfg hash fs kv.2 g hgl
    exact ⟨hlen, kv, hkv', hmem⟩

/-! ### Claim theorems -/

/-- Claim C1: for every input, every duplicate group returned by `scan` (under
either strategy) has length at least 2, and all members of one group report
the same byte size. -/
theorem scan_group_length_and_size (cfg : DuplicateScanner) (fs : FS)
    (hash : List Nat → Nat) (paths : List Path) (ub : Bool) :
    ∀ g ∈ DuplicateScanner.scan cfg fs hash paths ub,
      2 ≤ g.length ∧ ∀ p ∈ g, ∀ q ∈ g, statSize fs p = statSize fs q := by
  intro g hg
  obtain ⟨hlen, kv, hkv, hmem⟩ := scan_mem_partition cfg fs hash paths ub g hg
  have hsizes := groupBySize_sizes fs (collectFiles fs cfg paths) kv hkv
  refine ⟨hlen, ?_⟩
  intro p hp q hq
  rw [hsizes p (hmem p hp), hsizes q (hmem q hq)]

/-- Witness for C1 at the sample filesystem: the group `[sampleA, sampleB]`
is returned by the hash-strategy scan. -/
theorem scan_group_length_and_size_witness :
    2 ≤ ([sampleA, sampleB] : List Path).length ∧
      ∀ p ∈ ([sampleA, sampleB] : List Path),
        ∀ q ∈ ([sampleA, sampleB] : List Path),
          statSize sampleFS p = statSize sampleFS q :=
  scan_group_length_and_size sampleCfg sampleFS sampleHash
    [sampleA, sampleB, sampleC] false [sampleA, sampleB] (by decide)

/-- Claim C3: purge in dry-run mode leaves the filesystem untouched. -/
theorem purge_dry_run_preserves_fs (locked : List Path)
    (duplicateGroups : List (List Path)) (fs : FS) :
    (purgeDuplicates locked duplicateGroups true fs).fs = fs := by
  rw [purgeDuplicates_eq_foldl_flatten, purge_foldl_dry]

/-- Claim C4: in dry-run mode the per-file report lines are exactly the
`Would remove` messages, and their count equals the sum of `len(group) - 1`
over the groups. -/
theorem purge_dry_run_would_remove_count (locked : List Path)
    (duplicateGroups : List (List Path)) (fs : FS)
    (hgroups : ∀ g ∈ duplicateGroups, 2 ≤ g.length) :
    (purgeDuplicates locked duplicateGroups true fs).events.length
        = (duplicateGroups.map (fun g => g.length - 1)).sum ∧
      ∀ e ∈ (purgeDuplicates locked duplicateGroups true fs).events,
        e = PurgeEvent.wouldRemove e.path := by
  rw [purgeDuplicates_eq_foldl_flatten, purge_foldl_dry]
  constructor
  · simp only [List.nil_append, List.length_map, List.length_flatten,
      List.map_map]
    congr 1
    apply List.map_congr_left
    intro g _
    simp [List.length_drop]
  · intro e he
    simp only [List.nil_append] at he
    rcases List.mem_map.mp he with ⟨p, _, rfl⟩
    rfl

/-- Witness for C4 at a concrete group list. -/
theorem purge_dry_run_would_remove_count_witness :
    (purgeDuplicates [] [[sampleA, sampleB, sampleC]] true sampleFS).events.length
        = (([[sampleA, sampleB, sampleC]] : List (List Path)).map
            (fun g => g.length - 1)).sum ∧
      ∀ e ∈ (purgeDuplicates [] [[sampleA, sampleB, sampleC]] true
          sampleFS).events, e = PurgeEvent.wouldRemove e.path :=
  purge_dry_run_would_remove_count [] [[sampleA, sampleB, sampleC]] sampleFS
    (by decide)

/-- Claim C6: under the shortest-name keeper policy of `delete_duplicates`,
the keeper belongs to the group, its filename is of minimal length, every
member discovered before it has a strictly longer filename (so ties go to the
first-discovered), and the deletion candidates are exactly the other
members. -/
theorem delete_duplicates_keeper_spec (f : Path) (rest : List Path) :
    shortestNameFile f rest ∈ f :: rest ∧
      (∀ x ∈ f :: rest,
        (shortestNameFile f rest).name.length ≤ x.name.length) ∧
      (∃ pre post, f :: rest = pre ++ shortestNameFile f rest :: post ∧
        ∀ x ∈ pre, (shortestNameFile f rest).name.length < x.name.length) ∧
      ∀ x, x ∈ filesToDelete (f :: rest) ↔
        (x ∈ f :: rest ∧ x ≠ shortestNameFile f rest) := by
  obtain ⟨⟨pre, post, hdec, hpre⟩, hle⟩ := shortestNameFile_spec rest f
  refine ⟨?_, hle, ⟨pre, post, hdec, hpre⟩, fun x => filesToDelete_mem f rest x⟩
  rw [hdec]
  exact List.mem_append.mpr (Or.inr (by simp))

/-- Witness for C6 on a concrete group with a name-length tie. -/
theorem delete_duplicates_keeper_spec_witness :
    shortestNameFile sampleB [sampleA, sampleC] ∈ sampleB :: [sampleA, sampleC] ∧
      (∀ x ∈ sampleB :: [sampleA, sampleC],
        (shortestNameFile sampleB [sampleA, sampleC]).name.length
          ≤ x.name.length) ∧
      (∃ pre post, sampleB :: [sampleA, sampleC]
          = pre ++ shortestNameFile sampleB [sampleA, sampleC] :: post ∧
        ∀ x ∈ pre, (shortestNameFile sampleB [sampleA, sampleC]).name.length
          < x.name.length) ∧
      ∀ x, x ∈ filesToDelete (sampleB :: [sampleA, sampleC]) ↔
        (x ∈ sampleB :: [sampleA, sampleC]
          ∧ x ≠ shortestNameFile sampleB [sampleA, sampleC]) :=
  delete_duplicates_keeper_spec sampleB [sampleA, sampleC]

/-- Claim C8: constructing the scanner fails with a validation error exactly
when the hash algorithm is outside the enumerated set; the constructor takes
no filesystem argument, so the failure precedes any I/O. -/
theorem init_validates_hash_algorithm (alg : String) (mn : Nat)
    (mx : Option Nat) (r fsym : Bool) (cs : Nat) :
    (∃ e, DuplicateScanner.init alg mn mx r fsym cs = Except.error e) ↔
      alg ∉ allowedHashAlgorithms := by
  rw [DuplicateScanner.init]
  by_cases h : alg ∈ allowedHashAlgorithms
  · simp [h]
  · simp [h]

/-- Claim C9: a scan whose roots all fail to resolve (nonexistent paths)
collects nothing and returns the empty list rather than raising. -/
theorem scan_nonexistent_roots_empty (cfg : DuplicateScanner) (fs : FS)
    (hash : List Nat → Nat) (paths : List Path) (ub : Bool)
    (h : ∀ p ∈ paths, lookupFS fs p = none) :
    DuplicateScanner.scan cfg fs hash paths ub = [] := by
  have hcf := collectFiles_nonexistent fs cfg paths h
  rw [DuplicateScanner.scan, hcf]
  simp

/-- Witness for C9: scanning only a nonexistent root yields the empty list. -/
theorem scan_nonexistent_roots_empty_witness :
    DuplicateScanner.scan sampleCfg sampleFS sampleHash [ghostPath] false = [] :=
  scan_nonexistent_roots_empty sampleCfg sampleFS sampleHash [ghostPath] false
    (by decide)

theorem shouldIncludeFile_eq_amended (fs : FS) (cfg : DuplicateScanner)
    (p : Path) :
    shouldIncludeFile fs cfg p = amendedIncludePred fs cfg p := by
  rw [shouldIncludeFile, amendedIncludePred]
  have hnot : (!(isSymlink fs p) || cfg.follow_symlinks)
      = !(isSymlink fs p && !cfg.follow_symlinks) := by
    cases isSymlink fs p <;> cases cfg.follow_symlinks <;> rfl
  rw [hnot]
  cases hf : isFile fs p
  · simp
  · simp only [Bool.not_true, Bool.false_eq_true, if_false, Bool.true_and]
    cases hsf : (isSymlink fs p && !cfg.follow_symlinks)
    · simp only [Bool.not_false, Bool.true_and, Bool.false_eq_true, if_false]
      cases ht : statSize fs p with
      | none => rfl
      | some size =>
        by_cases hmin : size < cfg.min_size
        · have hle : ¬ (cfg.min_size ≤ size) := by omega
          simp [hmin, hle]
        · have hle : cfg.min_size ≤ size := by omega
          simp only [if_neg hmin, decide_eq_true hle, Bool.true_and]
          cases hm : cfg.max_size with
          | none => rfl
          | some m =>
            by_cases hm0 : m = 0
            · simp [hm0]
            · by_cases hlt : m < size
              · have hsle : ¬ (size ≤ m) := by omega
                simp [hm0, hlt, hsle]
              · have hsle : size ≤ m := by omega
                simp [hm0, hlt, hsle]
    · simp

/-- Counterexample to claim C7 as stated: `cexCfg` has `max_size` set to `0`,
and `cexPath` is a regular non-symlink file of size 1; the source's
truthiness test includes it even though the spec's predicate, which applies
the upper bound whenever `max_size` is set, excludes it. -/
theorem shouldIncludeFile_spec_counterexample :
    shouldIncludeFile cexFS cexCfg cexPath = true ∧
      specIncludePred cexFS cexCfg cexPath = false ∧
      cexCfg.max_size = some 0 ∧ statSize cexFS cexPath = some 1 := by
  refine ⟨?_, ?_, rfl, ?_⟩ <;> rfl

/-- Claim C7 amended: a candidate file is included iff it is a regular file,
not a symlink unless `follow_symlinks`, of size at least `min_size`, and of
size at most `max_size` whenever `max_size` is set to a nonzero value;
consequently every member of every returned group satisfies that amended
predicate. -/
theorem shouldIncludeFile_amended_spec :
    (∀ (fs : FS) (cfg : DuplicateScanner) (p : Path),
      shouldIncludeFile fs cfg p = amendedIncludePred fs cfg p) ∧
    (∀ (cfg : DuplicateScanner) (fs : FS) (hash : List Nat → Nat)
        (paths : List Path) (ub : Bool),
      ∀ g ∈ DuplicateScanner.scan cfg fs hash paths ub,
        ∀ p ∈ g, amendedIncludePred fs cfg p = true) := by
  constructor
  · exact shouldIncludeFile_eq_amended
  · intro cfg fs hash paths ub g hg p hp
    obtain ⟨_, kv, hkv, hmem⟩ := scan_mem_partition cfg fs hash paths ub g hg
    have hpc : p ∈ collectFiles fs cfg paths :=
      groupBySize_mem_files fs _ kv hkv p (hmem p hp)
    rw [← shouldIncludeFile_eq_amended]
    exact collectFiles_included fs cfg paths p hpc

/-- Witness for the amended C7. -/
theorem shouldIncludeFile_amended_spec_witness :
    shouldIncludeFile cexFS cexCfg cexPath
        = amendedIncludePred cexFS cexCfg cexPath ∧
      amendedIncludePred sampleFS sampleCfg sampleA = true :=
  ⟨shouldIncludeFile_amended_spec.1 cexFS cexCfg cexPath,
   shouldIncludeFile_amended_spec.2 sampleCfg sampleFS sampleHash
     [sampleA, sampleB, sampleC] false [sampleA, sampleB] (by decide)
     sampleA (by decide)⟩

/-- Claim C10: across the whole scan result, the returned groups are pairwise
disjoint, so each distinct file path appears in at most one group. -/
theorem scan_groups_pairwise_disjoint (cfg : DuplicateScanner) (fs : FS)
    (hash : List Nat → Nat) (paths : List Path) (ub : Bool) :
    (DuplicateScanner.scan cfg fs hash paths ub).Pairwise
      (fun g1 g2 => ∀ p ∈ g1, p ∉ g2) := by
  have hstrat : ∀ (files : List Path) (g : List Path),
      g ∈ (if ub = true then findDuplicatesByteComparison cfg fs files
           else findDuplicatesHash cfg hash fs files) → ∀ p ∈ g, p ∈ files := by
    intro files g hgf
    cases ub
    · simp only [Bool.false_eq_true, if_false] at hgf
      exact fun p hp => (findDuplicatesHash_mem cfg hash fs files g hgf).2 p hp
    · simp only [if_true] at hgf
      exact fun p hp =>
        (findDuplicatesByteComparison_mem cfg fs files g hgf).2 p hp
  rw [scan_eq_flatten, List.pairwise_flatten]
  constructor
  · intro l hl
    rcases List.mem_map.mp hl with ⟨kv, _, rfl⟩
    cases ub
    · simp only [Bool.false_eq_true, if_false]
      exact findDuplicatesHash_pairwise cfg hash fs kv.2
    · simp only [if_true]
      exact findDuplicatesByteComparison_pairwise cfg fs kv.2
  · have hpw0 : (groupBySize fs (collectFiles fs cfg paths)).Pairwise
        (fun a b => a.1 ≠ b.1) :=
      List.pairwise_map.mp (groupBySize_fst_nodup fs (collectFiles fs cfg paths))
    have hdisj : (groupBySize fs (collectFiles fs cfg paths)).Pairwise
        (fun a b => ∀ p ∈ a.2, p ∉ b.2) := by
      refine hpw0.imp_of_mem ?_
      intro a b ha hb hne p hpa hpb
      have h1 := groupBySize_sizes fs _ a ha p hpa
      have h2 := groupBySize_sizes fs _ b hb p hpb
      rw [h1] at h2
      exact hne (Option.some.inj h2)
    have hdisj' := hdisj.sublist
      (@List.filter_sublist (Nat × List Path)
        (fun kv => !decide (kv.2.length < 2))
        (groupBySize fs (collectFiles fs cfg paths)))
    rw [List.pairwise_map]
    refine hdisj'.imp_of_mem ?_
    intro a b _ _ hab x hx y hy p hpx hpy
    exact hab p (hstrat a.2 x hx p hpx) (hstrat b.2 y hy p hpy)

/-- Claim C2: when the digest has no collisions on the collected files (all
distinct), the hash-strategy scan and the byte-comparison scan agree
group-for-group, and all members of any returned group are byte-for-byte
identical. -/
theorem scan_hash_eq_byte (cfg : DuplicateScanner) (fs : FS)
    (hash : List Nat → Nat) (paths : List Path)
    (hcs : 0 < cfg.chunk_size)
    (hnd : (collectFiles fs cfg paths).Nodup)
    (hinj : ∀ p ∈ collectFiles fs cfg paths,
      ∀ q ∈ collectFiles fs cfg paths,
        hash (contentOf fs p) = hash (contentOf fs q) →
          contentOf fs p = contentOf fs q) :
    DuplicateScanner.scan cfg fs hash paths false
        = DuplicateScanner.scan cfg fs hash paths true ∧
      ∀ g ∈ DuplicateScanner.scan cfg fs hash paths false,
        ∀ p ∈ g, ∀ q ∈ g, contentOf fs p = contentOf fs q := by
  have hstream : ∀ r, calculateFileHash cfg hash fs r = hash (contentOf fs r) := by
    intro r
    rw [calculateFileHash, streamedContent,
      if_neg (Nat.pos_iff_ne_zero.mp hcs)]
  have hmain : DuplicateScanner.scan cfg fs hash paths false
      = DuplicateScanner.scan cfg fs hash paths true := by
    rw [scan_eq_flatten, scan_eq_flatten]
    simp only [Bool.false_eq_true, if_false, if_true]
    congr 1
    apply List.map_congr_left
    intro kv hkv
    have hkv' := List.mem_of_mem_filter hkv
    have hndkv : kv.2.Nodup :=
      groupBySize_snd_nodup fs (collectFiles fs cfg paths) hnd kv hkv'
    have hsub : ∀ p ∈ kv.2, p ∈ collectFiles fs cfg paths :=
      groupBySize_mem_files fs (collectFiles fs cfg paths) kv hkv'
    rw [findDuplicatesHash_eq_classes,
      findDuplicatesByteComparison_eq_classes cfg fs kv.2 hcs hndkv]
    congr 1
    apply classesOf_congr
    intro p hp q hq
    rw [hstream p, hstream q]
    constructor
    · intro hkey
      exact hinj p (hsub p hp) q (hsub q hq) hkey
    · intro hcontent
      rw [hcontent]
  refine ⟨hmain, ?_⟩
  intro g hg p hp q hq
  rw [hmain, scan_eq_flatten] at hg
  rcases List.mem_flatten.mp hg with ⟨l, hl, hgl⟩
  rcases List.mem_map.mp hl with ⟨kv, hkv, rfl⟩
  simp only [if_true] at hgl
  have hkv' := List.mem_of_mem_filter hkv
  have hndkv : kv.2.Nodup :=
    groupBySize_snd_nodup fs (collectFiles fs cfg paths) hnd kv hkv'
  rw [findDuplicatesByteComparison_eq_classes cfg fs kv.2 hcs hndkv] at hgl
  exact classesOf_same_key (fun r => contentOf fs r) kv.2 g
    (List.mem_of_mem_filter hgl) p hp q hq

/-- Witness for C2 at the sample filesystem. -/
theorem scan_hash_eq_byte_witness :
    DuplicateScanner.scan sampleCfg sampleFS sampleHash
        [sampleA, sampleB, sampleC] false
      = DuplicateScanner.scan sampleCfg sampleFS sampleHash
          [sampleA, sampleB, sampleC] true ∧
      ∀ g ∈ DuplicateScanner.scan sampleCfg sampleFS sampleHash
          [sampleA, sampleB, sampleC] false,
        ∀ p ∈ g, ∀ q ∈ g, contentOf sampleFS p = contentOf sampleFS q :=
  scan_hash_eq_byte sampleCfg sampleFS sampleHash [sampleA, sampleB, sampleC]
    (by decide) (by decide) (by decide)

/-- Claim C5: a live purge attempts to delete exactly the non-keepers of every
group in order (a per-file failure aborts nothing), the returned counter
equals the number of successful deletions, the filesystem loses exactly that
many entries, and paths outside the non-keepers are untouched. -/
theorem purge_live_run_spec (locked : List Path)
    (duplicateGroups : List (List Path)) (fs : FS)
    (hnd : (fs.map Prod.fst).Nodup) :
    (purgeDuplicates locked duplicateGroups false fs).events.map PurgeEvent.path
        = (duplicateGroups.map (fun g => g.drop 1)).flatten ∧
      (purgeDuplicates locked duplicateGroups false fs).removedCount
        = (purgeDuplicates locked duplicateGroups false fs).events.countP
            PurgeEvent.isRemoved ∧
      (purgeDuplicates locked duplicateGroups false fs).fs.length
          + (purgeDuplicates locked duplicateGroups false fs).removedCount
        = fs.length ∧
      ∀ q, q ∉ (duplicateGroups.map (fun g => g.drop 1)).flatten →
        lookupFS (purgeDuplicates locked duplicateGroups false fs).fs q
          = lookupFS fs q := by
  rw [purgeDuplicates_eq_foldl_flatten]
  refine ⟨?_, ?_, ?_, ?_⟩
  · rw [purge_foldl_live_paths]
    simp
  · exact purge_foldl_live_count locked _ ⟨fs, 0, []⟩ (by simp)
  · exact (purge_foldl_live_fs locked _ ⟨fs, 0, []⟩ hnd).2
  · intro q hq
    exact purge_foldl_live_frame locked _ ⟨fs, 0, []⟩ q hq

/-- Witness for C5: purging the sample group with `sampleC` locked removes the
two deletable non-keepers and records the failure without aborting. -/
theorem purge_live_run_spec_witness :
    (purgeDuplicates [sampleC] [[sampleA, sampleB, sampleC]] false
        sampleFS).events.map PurgeEvent.path
        = (([[sampleA, sampleB, sampleC]] : List (List Path)).map
            (fun g => g.drop 1)).flatten ∧
      (purgeDuplicates [sampleC] [[sampleA, sampleB, sampleC]] false
          sampleFS).removedCount
        = (purgeDuplicates [sampleC] [[sampleA, sampleB, sampleC]] false
            sampleFS).events.countP PurgeEvent.isRemoved ∧
      (purgeDuplicates [sampleC] [[sampleA, sampleB, sampleC]] false
          sampleFS).fs.length
          + (purgeDuplicates [sampleC] [[sampleA, sampleB, sampleC]] false
              sampleFS).removedCount
        = sampleFS.length ∧
      ∀ q, q ∉ (([[sampleA, sampleB, sampleC]] : List (List Path)).map
          (fun g => g.drop 1)).flatten →
        lookupFS (purgeDuplicates [sampleC] [[sampleA, sampleB, sampleC]]
            false sampleFS).fs q
          = lookupFS sampleFS q :=
  purge_live_run_spec [sampleC] [[sampleA, sampleB, sampleC]] sampleFS
    (by decide)

end Deduper
